import Mathlib

/-!
# dsh job control: registry, spawner and driver loop

A shallow embedding of `dsh.c`.  Jobs live in a heap addressed by pointers, because the
program shares job nodes between the parser's chain, the driver loop's cursor and the
active-jobs registry and rewrites their `next` links in place.  The processes of a job are
owned by the job and their links are never rewritten by `dsh.c`, so they are a list inside
the job.  Loops that chase `next` pointers take a fuel argument; running out of fuel, or
dereferencing a pointer that is not allocated, is the outcome `stuck` (`none`).
-/

namespace Dsh

/-! ## Data model -/

/-- Address of a `job_t` node; `Option Ptr` is a possibly-NULL `job_t *`. -/
abbrev Ptr := Nat

/-- The `status` word filled in by `waitpid(pid, &status, WUNTRACED)`. -/
inductive WaitStatus where
  | exited (code : Nat)
  | signaled (sig : Nat)
  | stopped (sig : Nat)
deriving DecidableEq, Repr

/-- The `WIFEXITED` test of `<sys/wait.h>`. -/
def WIFEXITED : WaitStatus → Bool
  | .exited _ => true
  | _ => false

/-- The `WIFSTOPPED` test of `<sys/wait.h>`. -/
def WIFSTOPPED : WaitStatus → Bool
  | .stopped _ => true
  | _ => false

/-- One stage of a pipeline (`process_t`); the `next` link is the list position. -/
structure process_t where
  argv : List String
  pid : Int
  completed : Bool
  stopped : Bool
  ifile : Option String
  ofile : Option String
deriving DecidableEq, Repr

/-- One job (`job_t`): the fields `dsh.c` reads or writes. -/
structure job_t where
  commandinfo : String
  first_process : List process_t
  pgid : Int
  bg : Bool
  next : Option Ptr
deriving DecidableEq, Repr

/-- What a file descriptor refers to. -/
inductive FdObj where
  | tty
  | pipe_read (k : Nat)
  | pipe_write (k : Nat)
  | file_in (path : String)
  | file_out (path : String)
deriving DecidableEq, Repr

/-- Open file descriptors of one OS process. -/
abbrev FdTable := List (Nat × FdObj)

/-- Calls by which the shell, or a child before its `execvp`, is seen from outside. -/
inductive Event where
  | status_line (text : String)
  | perror (msg : String)
  | pipe (rd wr : Nat)
  | fork (pid : Int)
  | setpgid (pid pgid : Int)
  | waitpid (pid : Int) (status : WaitStatus)
  | seize_tty (pgid : Int)
deriving DecidableEq, Repr

/-- What a forked child has done by the time it calls `execvp`. -/
structure ChildExec where
  pid : Int
  job : job_t
  calls : List Event
  fds : FdTable
  argv : List String
deriving DecidableEq, Repr

/-- The operating system as seen by the shell process: the value `fork` returns to the
parent at its `k`-th call, the status the `k`-th `waitpid` reports, whether `open` succeeds on a
path for reading (`O_RDONLY`) and for writing (`O_CREAT | O_WRONLY | O_TRUNC`), and what
`getpid` returns in the shell. -/
structure OS where
  fork : Nat → Int
  waitpid : Nat → WaitStatus
  open_read_ok : String → Bool
  open_create_ok : String → Bool
  getpid : Int

/-- Memory and globals of the shell process, with the log of what it has done. -/
structure State where
  heap : Ptr → Option job_t
  active_jobs : Option Ptr
  jobs_added : Bool
  fds : FdTable
  npipe : Nat
  nfork : Nat
  nwait : Nat
  out : List Event
  children : List ChildExec

/-- How a piece of the program ends: it returns, the process exits, the process replaces
its image with `execvp`, or it is stuck (undefined behaviour or fuel exhausted). -/
inductive Outcome (α : Type) where
  | ok (a : α) (s : State)
  | exit (code : Int) (s : State)
  | exec (c : ChildExec)
  | stuck

/-! ## Heap primitives -/

/-- Write `jb` at address `a`. -/
def heap_write (h : Ptr → Option job_t) (a : Ptr) (jb : job_t) : Ptr → Option job_t :=
  fun b => if b = a then some jb else h b

/-- Modelled from the spec: `free_job`, declared in `dsh.c` and defined elsewhere, releases
the job node; its address is no longer allocated. -/
def free_job (h : Ptr → Option job_t) (a : Ptr) : Ptr → Option job_t :=
  fun b => if b = a then none else h b

/-- Modelled from the spec: `job_is_completed`, defined outside `dsh.c`: every process of
the job is Completed. -/
def job_is_completed (jb : job_t) : Bool :=
  jb.first_process.all (fun p => p.completed)

/-- Modelled from the spec: `job_is_stopped`, defined outside `dsh.c`: no process of the
job is still Running, each one is Completed or Stopped. -/
def job_is_stopped (jb : job_t) : Bool :=
  jb.first_process.all (fun p => p.completed || p.stopped)

/-! ## The active-jobs registry -/

/-- The `while (current->next) current = current->next;` walk of `append_active_job`:
the last node of the chain that starts at `current`. -/
def last_job (h : Ptr → Option job_t) : Nat → Ptr → Option Ptr
  | 0, _ => none
  | fuel + 1, current =>
    match h current with
    | none => none
    | some cj =>
      match cj.next with
      | none => some current
      | some nx => last_job h fuel nx

/-- The function `append_active_job(j)`. -/
def append_active_job (fuel : Nat) (j : Option Ptr) (s : State) : Option State :=
  match j with
  | none => some s
  | some jp =>
    match s.active_jobs with
    | none => some { s with active_jobs := some jp }
    | some hd =>
      match last_job s.heap fuel hd with
      | none => none
      | some current =>
        match s.heap current with
        | none => none
        | some cj => some { s with heap := heap_write s.heap current { cj with next := some jp } }

/-- The `while (current->next != NULL)` loop of `delete_completed_jobs_from_active_jobs`. -/
def delete_loop : Nat → Ptr → (Ptr → Option job_t) → Option (Ptr → Option job_t)
  | 0, _, _ => none
  | fuel + 1, current, h =>
    match h current with
    | none => none
    | some cj =>
      match cj.next with
      | none => some h
      | some nx =>
        match h nx with
        | none => none
        | some to_free =>
          if job_is_completed to_free then
            delete_loop fuel current
              (free_job (heap_write h current { cj with next := to_free.next }) nx)
          else
            delete_loop fuel nx h

/-- The function `delete_completed_jobs_from_active_jobs()`. -/
def delete_completed_jobs_from_active_jobs (fuel : Nat) (s : State) : Option State :=
  match s.active_jobs with
  | none => some s
  | some hd =>
    match delete_loop fuel hd s.heap with
    | none => none
    | some h1 =>
      match h1 hd with
      | none => none
      | some hj =>
        if job_is_completed hj then
          some { s with heap := free_job h1 hd, active_jobs := hj.next }
        else
          some { s with heap := h1 }

/-- The heap holds, from pointer `p`, exactly the chain of nodes `xs` ending in NULL. -/
def IsChain (h : Ptr → Option job_t) : Option Ptr → List Ptr → Prop
  | p, [] => p = none
  | p, a :: as => p = some a ∧ ∃ jb, h a = some jb ∧ IsChain h jb.next as

/-- The heap holds, from pointer `p`, the nodes `xs` in order, and the `next` link of the
last of them is `q`. -/
def IsSeg (h : Ptr → Option job_t) : Option Ptr → List Ptr → Option Ptr → Prop
  | p, [], q => p = q
  | p, a :: as, q => p = some a ∧ ∃ jb, h a = some jb ∧ IsSeg h jb.next as q

/-- Whether the job stored at `a` has all its processes Completed. -/
def completed_at (h : Ptr → Option job_t) (a : Ptr) : Bool :=
  match h a with
  | some jb => job_is_completed jb
  | none => false

/-- Two job records agree on everything but their `next` link. -/
def same_job (jb jb1 : job_t) : Prop :=
  jb1.commandinfo = jb.commandinfo ∧ jb1.first_process = jb.first_process ∧
    jb1.pgid = jb.pgid ∧ jb1.bg = jb.bg

/-- The jobs reachable from `p` by `next`, when the chain ends within `fuel` nodes. -/
def chain_list (h : Ptr → Option job_t) : Nat → Option Ptr → Option (List Ptr)
  | _, none => some []
  | 0, some _ => none
  | fuel + 1, some a =>
    match h a with
    | none => none
    | some jb => (chain_list h fuel jb.next).map (fun l => a :: l)

/-- The function `print_job_status_message(j, status)`: the line written to the error
stream. -/
def print_job_status_message (jb : job_t) (status : String) : Event :=
  .status_line (toString jb.pgid ++ "(" ++ status ++ "): " ++ jb.commandinfo)

/-- The classification made for one job by the `jobs` built-in. -/
def status_message (jb : job_t) : Event :=
  if job_is_completed jb then print_job_status_message jb "Completed"
  else if job_is_stopped jb then print_job_status_message jb "Stopped"
  else print_job_status_message jb "Running"

/-- The `while (current)` loop of the `jobs` built-in: the lines it prints. -/
def jobs_loop (h : Ptr → Option job_t) : Nat → Option Ptr → List Event → Option (List Event)
  | _, none, acc => some acc
  | 0, some _, _ => none
  | fuel + 1, some current, acc =>
    match h current with
    | none => none
    | some cj => jobs_loop h fuel cj.next (acc ++ [status_message cj])

/-- The function `builtin_cmd(last_job, argc, argv)`. -/
def builtin_cmd (fuel : Nat) (_last_job : Ptr) (_argc : Nat) (argv : List String)
    (s : State) : Outcome Bool :=
  match argv.head? with
  | none => .stuck
  | some cmd =>
    if cmd = "quit" then .exit 0 s
    else if cmd = "jobs" then
      match jobs_loop s.heap fuel s.active_jobs [] with
      | none => .stuck
      | some lines =>
        match delete_completed_jobs_from_active_jobs fuel { s with out := s.out ++ lines } with
        | none => .stuck
        | some s1 => .ok true s1
    else if cmd = "cd" then .ok true s
    else if cmd = "bg" then .ok true s
    else if cmd = "fg" then .ok true s
    else .ok false s

/-! ## File descriptors -/

/-- What descriptor `fd` refers to, if open. -/
def fd_lookup (t : FdTable) (fd : Nat) : Option FdObj :=
  (t.find? (fun e => e.1 == fd)).map (fun e => e.2)

/-- The call `close(fd)`. -/
def fd_close (t : FdTable) (fd : Nat) : FdTable :=
  t.filter (fun e => e.1 != fd)

/-- The call `dup2(oldfd, newfd)`: no effect when `oldfd` is not open. -/
def fd_dup2 (t : FdTable) (oldfd newfd : Nat) : FdTable :=
  match fd_lookup t oldfd with
  | none => t
  | some o => if oldfd = newfd then t else (newfd, o) :: fd_close t newfd

/-- The lowest descriptor number that is not open. -/
def lowest_free (t : FdTable) : Nat :=
  ((List.range (t.length + 1)).find? (fun n => (fd_lookup t n).isNone)).getD (t.length + 1)

/-- The call `pipe(pipeline)`, taken to succeed: the two lowest free descriptors become the read
and the write end of a new pipe.  (On failure `dsh.c` only calls `perror` and goes on with
an uninitialised `pipeline`; that path is not modelled.) -/
def sys_pipe (s : State) : (Nat × Nat) × State :=
  let rd := lowest_free s.fds
  let t1 := (rd, FdObj.pipe_read s.npipe) :: s.fds
  let wr := lowest_free t1
  ((rd, wr), { s with fds := (wr, FdObj.pipe_write s.npipe) :: t1,
                      npipe := s.npipe + 1,
                      out := s.out ++ [Event.pipe rd wr] })

/-- The function `try_io_redirection(p)`, run in the child. -/
def try_io_redirection (os : OS) (p : process_t) (c : ChildExec) : ChildExec :=
  let c1 : ChildExec :=
    match p.ifile with
    | none => c
    | some path =>
      if os.open_read_ok path then
        let fd := lowest_free c.fds
        { c with fds := fd_close (fd_dup2 ((fd, FdObj.file_in path) :: c.fds) fd 0) fd }
      else { c with calls := c.calls ++ [Event.perror "Failed to open file specified\n"] }
  match p.ofile with
  | none => c1
  | some path =>
    if os.open_create_ok path then
      let fd := lowest_free c1.fds
      { c1 with fds := fd_close (fd_dup2 ((fd, FdObj.file_out path) :: c1.fds) fd 1) fd }
    else { c1 with calls := c1.calls ++ [Event.perror "Failed to write to file specified\n"] }

/-! ## Process groups -/

/-- The function `set_child_pgid(j, p)`: the job after the call and the `setpgid` call it
makes. -/
def set_child_pgid (jb : job_t) (p : process_t) : job_t × Event :=
  let jb1 := if jb.pgid < 0 then { jb with pgid := p.pid } else jb
  (jb1, Event.setpgid p.pid jb1.pgid)

/-- The function `new_child(j, p, fg)`, run in the child whose `getpid()` is `mypid`, on its copy of
the job; `i` is the position of `p` in the job. -/
def new_child (mypid : Int) (jb : job_t) (i : Nat) (p : process_t) (fg : Bool) :
    job_t × process_t × List Event :=
  let p1 := { p with pid := mypid }
  let r := set_child_pgid { jb with first_process := jb.first_process.set i p1 } p1
  (r.1, p1, r.2 :: (if fg then [Event.seize_tty r.1.pgid] else []))

/-- The `case 0` branch of `spawn_job`: what the child does up to `execvp`, on its copy of
the job `jb` and of the descriptor table `fds`.  `first` is `p == j->first_process`, `last`
is `p->next == NULL`. -/
def child_branch (os : OS) (mypid : Int) (jb : job_t) (i : Nat) (p : process_t) (last : Bool)
    (fg piping : Bool) (pipeline prev_pipe : Nat × Nat) (fds : FdTable) : ChildExec :=
  let r := new_child mypid jb i { p with pid := mypid } fg
  let c := try_io_redirection os r.2.1
    { pid := mypid, job := r.1, calls := r.2.2, fds := fds, argv := p.argv }
  if piping then
    if i = 0 then
      { c with fds := fd_dup2 c.fds pipeline.2 1 }
    else if last then
      { c with fds := fd_dup2 (fd_close (fd_close c.fds pipeline.1) pipeline.2) prev_pipe.1 0 }
    else
      { c with fds := fd_dup2 (fd_dup2 c.fds prev_pipe.1 0) pipeline.2 1 }
  else c

/-! ## The spawner -/

/-- The status test made after each `waitpid` in `spawn_job`. -/
def mark_status (status : WaitStatus) (p : process_t) : process_t × List Event :=
  if WIFEXITED status then ({ p with completed := true }, [])
  else if WIFSTOPPED status then ({ p with stopped := true }, [Event.perror "Process stopped\n"])
  else (p, [])

/-- The call `waitpid(pid, &status, WUNTRACED)` followed by the status test, for process `i` of
job `j`. -/
def wait_process (os : OS) (j : Ptr) (i : Nat) (pid : Int) (s : State) : Option State :=
  match s.heap j with
  | none => none
  | some jb =>
    match jb.first_process[i]? with
    | none => none
    | some p =>
      let status := os.waitpid s.nwait
      let r := mark_status status p
      some { s with heap := heap_write s.heap j { jb with first_process := jb.first_process.set i r.1 },
                    nwait := s.nwait + 1,
                    out := s.out ++ Event.waitpid pid status :: r.2 }

/-- The loop after the spawn loop, `for (p = j->first_process; p; p = p->next)`, that
waits on every stage of a piped job. -/
def wait_all (os : OS) (j : Ptr) : List process_t → Nat → State → Option State
  | [], _, s => some s
  | _ :: rest, i, s =>
    match s.heap j with
    | none => none
    | some jb =>
      match jb.first_process[i]? with
      | none => none
      | some p =>
        match wait_process os j i p.pid s with
        | none => none
        | some s1 => wait_all os j rest (i + 1) s1

/-- How the spawn loop ends: by the `return` after a built-in, or by running off the end
of the process list with the final value of `piping`. -/
inductive LoopExit where
  | returned
  | finished (piping : Bool)
deriving DecidableEq, Repr

/-- The `for (p = j->first_process; p; p = p->next)` loop of `spawn_job`, at process `p`
of index `i`, with `rest` the processes after it. -/
def spawn_loop (os : OS) (fuel : Nat) (j : Ptr) (fg : Bool) :
    List process_t → Nat → Bool → Nat × Nat → State → Outcome LoopExit
  | [], _, piping, _, s => .ok (.finished piping) s
  | p :: rest, i, piping, prev_pipe, s =>
    match builtin_cmd fuel j p.argv.length p.argv s with
    | .stuck => .stuck
    | .exec c => .exec c
    | .exit code s1 => .exit code s1
    | .ok true s1 => .ok .returned s1
    | .ok false s1 =>
      match (if s1.jobs_added then some s1
             else (append_active_job fuel (some j) s1).map
               (fun t => { t with jobs_added := true })) with
      | none => .stuck
      | some s2 =>
        let piping1 := piping || !rest.isEmpty
        let pp := if piping1 then sys_pipe s2 else ((0, 0), s2)
        let pipeline := pp.1
        let s3 := pp.2
        match s3.heap j with
        | none => .stuck
        | some jb =>
          match jb.first_process[i]? with
          | none => .stuck
          | some pc =>
            let pid := os.fork s3.nfork
            if pid = -1 then
              .exit 1 { s3 with nfork := s3.nfork + 1, out := s3.out ++ [Event.perror "fork"] }
            else if pid = 0 then
              .exec (child_branch os os.getpid jb i pc rest.isEmpty fg piping1 pipeline
                prev_pipe s3.fds)
            else
              let child := child_branch os pid jb i pc rest.isEmpty fg piping1 pipeline
                prev_pipe s3.fds
              let p1 := { pc with pid := pid }
              let r := set_child_pgid { jb with first_process := jb.first_process.set i p1 } p1
              let s4 : State :=
                { s3 with heap := heap_write s3.heap j r.1,
                          nfork := s3.nfork + 1,
                          out := s3.out ++ [Event.fork pid, r.2],
                          children := s3.children ++ [child] }
              if !piping1 then
                match wait_process os j i pid s4 with
                | none => .stuck
                | some s5 => spawn_loop os fuel j fg rest (i + 1) piping1 prev_pipe s5
              else
                spawn_loop os fuel j fg rest (i + 1) piping1 pipeline s4

/-- Modelled from the spec: `seize_tty`, declared in `dsh.c` and defined elsewhere, hands
the controlling terminal to process group `pgid`. -/
def seize_tty (pgid : Int) (s : State) : State :=
  { s with out := s.out ++ [Event.seize_tty pgid] }

/-- The function `spawn_job(j, fg)`. -/
def spawn_job (os : OS) (fuel : Nat) (j : Ptr) (fg : Bool) (s : State) : Outcome Unit :=
  match s.heap j with
  | none => .stuck
  | some jb =>
    match spawn_loop os fuel j fg jb.first_process 0 false (0, 1) s with
    | .stuck => .stuck
    | .exec c => .exec c
    | .exit code s1 => .exit code s1
    | .ok .returned s1 => .ok () s1
    | .ok (.finished piping) s1 =>
      if piping then
        match wait_all os j jb.first_process 0 s1 with
        | none => .stuck
        | some s2 => .ok () (seize_tty os.getpid s2)
      else .ok () (seize_tty os.getpid s1)

/-! ## The driver loop -/

/-- One process of a parsed command line; `argv` is `argv0 :: args`, never empty. -/
structure ParsedProc where
  argv0 : String
  args : List String
  ifile : Option String
  ofile : Option String
deriving DecidableEq, Repr

/-- One job of a parsed command line, with the address the parser allocated for it; its
pipeline is `first :: more`, never empty. -/
structure ParsedJob where
  addr : Ptr
  commandinfo : String
  first : ParsedProc
  more : List ParsedProc
  bg : Bool
deriving DecidableEq, Repr

/-- Modelled from the spec: the parser is not in `dsh.c`.  A fresh process has no pid yet
and is Running (neither Completed nor Stopped). -/
def mk_process (pp : ParsedProc) : process_t :=
  { argv := pp.argv0 :: pp.args, pid := -1, completed := false, stopped := false,
    ifile := pp.ifile, ofile := pp.ofile }

/-- Modelled from the spec: the parser is not in `dsh.c`.  A fresh job has `pgid` -1 and
is linked by `next` to the job that follows it on the command line. -/
def mk_job (pj : ParsedJob) (next : Option Ptr) : job_t :=
  { commandinfo := pj.commandinfo,
    first_process := mk_process pj.first :: pj.more.map mk_process,
    pgid := -1, bg := pj.bg, next := next }

/-- The heap after the parser has stored the jobs of one command line. -/
def load_jobs : List ParsedJob → (Ptr → Option job_t) → (Ptr → Option job_t)
  | [], h => h
  | pj :: rest, h =>
    heap_write (load_jobs rest h) pj.addr (mk_job pj (rest.head?.map (fun q => q.addr)))

/-- Modelled from the spec: `readcmdline`, the parser, is not in `dsh.c`.  It yields the
first job of the chain for the line, or NULL for a blank line. -/
def readcmdline (line : List ParsedJob) (s : State) : Option Ptr × State :=
  (line.head?.map (fun q => q.addr), { s with heap := load_jobs line s.heap })

/-- The body of the inner loop of `main` run at most `n` times from `current_job`:
`spawn_job(current_job, !current_job->bg); current_job = current_job->next;`.
The result is the value of `current_job` it stopped at. -/
def spawn_jobs (os : OS) (fuel : Nat) : Nat → Option Ptr → State → Outcome (Option Ptr)
  | _, none, s => .ok none s
  | 0, some current_job, s => .ok (some current_job) s
  | n + 1, some current_job, s =>
    match s.heap current_job with
    | none => .stuck
    | some cj =>
      match spawn_job os fuel current_job (!cj.bg) s with
      | .stuck => .stuck
      | .exec c => .exec c
      | .exit code s1 => .exit code s1
      | .ok _ s1 =>
        match s1.heap current_job with
        | none => .stuck
        | some cj1 => spawn_jobs os fuel n cj1.next s1

/-- The `while(1)` loop of `main` fed the given command lines and then end of file. -/
def dsh_loop (os : OS) (fuel : Nat) : List (List ParsedJob) → State → Outcome Unit
  | [], s => .exit 0 s
  | line :: rest, s =>
    match readcmdline line s with
    | (none, s1) => dsh_loop os fuel rest s1
    | (some j, s1) =>
      match spawn_jobs os fuel fuel (some j) s1 with
      | .stuck => .stuck
      | .exec c => .exec c
      | .exit code s2 => .exit code s2
      | .ok (some _) _ => .stuck
      | .ok none s2 => dsh_loop os fuel rest { s2 with jobs_added := false }

/-- Modelled from the spec: `init_dsh` is not in `dsh.c`.  The shell starts with no job
allocated and its three standard streams on the terminal; the two globals of `dsh.c`
have their initialisers. -/
def init_state : State :=
  { heap := fun _ => none, active_jobs := none, jobs_added := false,
    fds := [(0, FdObj.tty), (1, FdObj.tty), (2, FdObj.tty)],
    npipe := 0, nfork := 0, nwait := 0, out := [], children := [] }

/-- The function `main()`. -/
def dsh_main (os : OS) (fuel : Nat) (lines : List (List ParsedJob)) : Outcome Unit :=
  dsh_loop os fuel lines init_state

/-! ## Vocabulary of the statements -/

/-- The command names `builtin_cmd` handles. -/
def builtin_names : List String := ["quit", "jobs", "cd", "bg", "fg"]

/-- The argument vector has an `argv[0]` and it names no built-in. -/
def not_builtin (argv : List String) : Bool :=
  match argv.head? with
  | none => false
  | some cmd => !(builtin_names.contains cmd)

/-- The pids returned by the `fork` calls of a log, in order. -/
def forked_pids (evs : List Event) : List Int :=
  evs.filterMap (fun e => match e with
    | Event.fork pid => some pid
    | _ => none)

/-- The `waitpid` calls of a log, in order: the pid waited on and the status reported. -/
def waited (evs : List Event) : List (Int × WaitStatus) :=
  evs.filterMap (fun e => match e with
    | Event.waitpid pid st => some (pid, st)
    | _ => none)

/-- The `setpgid(pid, pgid)` calls of a log, in order. -/
def setpgid_calls (evs : List Event) : List (Int × Int) :=
  evs.filterMap (fun e => match e with
    | Event.setpgid pid pgid => some (pid, pgid)
    | _ => none)

/-- The processes `ps` once each has the pid of its `fork`, the first being fork number
`k`. -/
def with_pids (os : OS) : List process_t → Nat → List process_t
  | [], _ => []
  | p :: ps, k => { p with pid := os.fork k } :: with_pids os ps (k + 1)

/-- The processes `ps` once each has been waited on, the first by wait number `k`. -/
def marked (os : OS) : List process_t → Nat → List process_t
  | [], _ => []
  | p :: ps, k => (mark_status (os.waitpid k) p).1 :: marked os ps (k + 1)

/-- The argument vector has an `argv[0]` and it names a built-in. -/
def is_builtin (argv : List String) : Bool :=
  match argv.head? with
  | none => false
  | some cmd => builtin_names.contains cmd

/-- The job at `a` is as the parser left it: allocated, with the processes `procs a`, not
completed, and each of its processes has an `argv[0]`. -/
def fresh_at (procs : Ptr → List process_t) (h : Ptr → Option job_t) (a : Ptr) : Prop :=
  ∃ jb, h a = some jb ∧ jb.first_process = procs a ∧ job_is_completed jb = false ∧
    ∀ p ∈ jb.first_process, p.argv ≠ []

/-- The shape of memory while the driver loop is at job `j` of a command line, with `rest`
the jobs after it on the line: the registry is the chain `xs`; `j` heads the chain of the
jobs of the line still to come; once the line is registered (`added`) that chain is the tail
of the registry, before it is disjoint from the registry. -/
structure SpawnInv (procs : Ptr → List process_t) (bound : Nat) (h : Ptr → Option job_t)
    (aj : Option Ptr) (added : Bool) (j : Ptr) (rest : List Ptr) (xs : List Ptr) : Prop where
  reg : IsChain h aj xs
  line : IsChain h (some j) (j :: rest)
  fresh : ∀ a ∈ rest, fresh_at procs h a
  link : if added = true then ∃ pre, xs = pre ++ j :: rest else ∀ a ∈ j :: rest, a ∉ xs
  room : xs.length + (if added = true then 0 else rest.length + 1) ≤ bound

/-- The spawn loop over the processes `ps` registers the line: the first of them is no
built-in. -/
def registers (ps : List process_t) : Bool :=
  match ps with
  | [] => false
  | p :: _ => !is_builtin p.argv

/-- What the invariant promises of an outcome of the spawner at job `j`, entered with the
registry `xs`: it is never stuck; when the shell exits its registry is a chain; when the
spawner returns the shape of memory is kept, with job `j` still allocated and of `n`
processes, the registry having gained nothing but, on registration, jobs of the line, and
the line is registered if it had to be (`must`: it was already, or the spawner met a
process that is no built-in). -/
def SpawnPost {α : Type} (procs : Ptr → List process_t) (bound : Nat) (j : Ptr)
    (rest xs : List Ptr) (must : Bool) (n : Nat) : Outcome α → Prop
  | .stuck => False
  | .exec _ => True
  | .exit _ s1 => ∃ xs1, IsChain s1.heap s1.active_jobs xs1 ∧ ∀ a ∈ xs1, a ∈ xs ∨ a ∈ j :: rest
  | .ok _ s1 => ∃ xs1 jf, SpawnInv procs bound s1.heap s1.active_jobs s1.jobs_added j rest xs1 ∧
      (∀ a ∈ xs1, a ∈ xs ∨ (s1.jobs_added = true ∧ a ∈ j :: rest)) ∧
      (must = true → s1.jobs_added = true) ∧
      s1.heap j = some jf ∧ jf.first_process.length = n

/-- The shape of memory when the inner loop of `main` is at `current_job = cur`, with
`rest` the jobs of the line from `cur` on: at the end of the line the registry is a chain
within the bound; before it, `SpawnInv` holds at the job `cur` points to, and that job is
as the parser left it. -/
def LineInv (procs : Ptr → List process_t) (bound : Nat) (h : Ptr → Option job_t)
    (aj : Option Ptr) (added : Bool) : Option Ptr → List Ptr → List Ptr → Prop
  | cur, [], xs => cur = none ∧ IsChain h aj xs ∧ xs.length ≤ bound
  | cur, j :: rest, xs =>
    cur = some j ∧ SpawnInv procs bound h aj added j rest xs ∧ fresh_at procs h j

/-- What the invariant promises of an outcome of the inner loop of `main` run for at most
`n` turns from the jobs `rest`, entered with the registry `xs` and the flag `added0`. -/
def LinePost (procs : Ptr → List process_t) (bound : Nat) (rest xs : List Ptr) (added0 : Bool)
    (n : Nat) : Outcome (Option Ptr) → Prop
  | .stuck => False
  | .exec _ => True
  | .exit _ s1 => ∃ xs1, IsChain s1.heap s1.active_jobs xs1 ∧ ∀ a ∈ xs1, a ∈ xs ∨ a ∈ rest
  | .ok c s1 => ∃ xs1 rest1,
      LineInv procs bound s1.heap s1.active_jobs s1.jobs_added c rest1 xs1 ∧
      (∀ a ∈ xs1, a ∈ xs ∨ (s1.jobs_added = true ∧ a ∈ rest)) ∧
      (added0 = true → s1.jobs_added = true) ∧
      (rest.length ≤ n → rest1 = [])

/-- The addresses of the jobs of one command line, in order. -/
def line_addrs (line : List ParsedJob) : List Ptr :=
  line.map (fun pj => pj.addr)

/-- The addresses of the jobs of all the command lines, in order. -/
def all_addrs : List (List ParsedJob) → List Ptr
  | [] => []
  | line :: rest => line_addrs line ++ all_addrs rest

/-- The process list stored at each address of a heap. -/
def heap_procs (h : Ptr → Option job_t) : Ptr → List process_t :=
  fun a => match h a with
    | some jb => jb.first_process
    | none => []

/-- What the invariant promises of an outcome of the driver loop: it is never stuck, it
does not return, and when the shell exits its registry is a chain without repetition. -/
def DriverPost : Outcome Unit → Prop
  | .stuck => False
  | .ok _ _ => False
  | .exec _ => True
  | .exit _ s1 => ∃ xs, IsChain s1.heap s1.active_jobs xs ∧ xs.Nodup

/-- The first process of the list is a built-in command. -/
def builtin_first (ps : List process_t) : Bool :=
  match ps with
  | [] => false
  | p :: _ => is_builtin p.argv

/-- What is promised of the inner loop of `main` run for `m` turns on a line that begins
with the jobs `lead`, each with a built-in as first process, followed by the jobs `tail`;
`never` are jobs already passed.  The registry is a chain; the jobs of `never` and `lead` are
not in it; while only jobs of `lead` have been spawned the line is not registered; and no
job of the line is in the registry as long as the line is not registered. -/
def LeadPost (never lead tail : List Ptr) (m : Nat) : Outcome (Option Ptr) → Prop
  | .stuck => False
  | .exec _ => True
  | .exit _ _ => True
  | .ok _ s1 => ∃ xs1, IsChain s1.heap s1.active_jobs xs1 ∧
      (∀ a ∈ never ++ lead, a ∉ xs1) ∧
      (m ≤ lead.length → s1.jobs_added = false) ∧
      (s1.jobs_added = false → ∀ a ∈ never ++ lead ++ tail, a ∉ xs1)

/-- What is promised of the inner loop of `main` when its last turn was `spawn_job` on job
`j`, whose first process is no built-in: it is not stuck, and if it has not exited the
line is registered and `j` is in the registry, which is a chain. -/
def RegisteredPost (j : Ptr) : Outcome (Option Ptr) → Prop
  | .stuck => False
  | .exec _ => True
  | .exit _ _ => True
  | .ok _ s1 => s1.jobs_added = true ∧ ∃ xs1, IsChain s1.heap s1.active_jobs xs1 ∧ j ∈ xs1

/-- The waitpid calls made for the processes `ps`, the first being wait number `k`. -/
def wait_log (os : OS) : List process_t → Nat → List (Int × WaitStatus)
  | [], _ => []
  | p :: ps, k => (p.pid, os.waitpid k) :: wait_log os ps (k + 1)

/-! ## Concrete inputs -/

/-- A one-process job running `cmd`, with the given Completed flag and `next` link. -/
def sample_job (cmd : String) (pgid : Int) (completed : Bool) (next : Option Ptr) : job_t :=
  { commandinfo := cmd,
    first_process := [{ argv := [cmd], pid := pgid, completed := completed, stopped := false,
                        ifile := none, ofile := none }],
    pgid := pgid, bg := false, next := next }

/-- A shell whose registry is the chain 1, 2, 3 with jobs 1 and 3 completed; job 7 is
allocated and not registered. -/
def sample_state : State :=
  { init_state with
    heap := fun a =>
      if a = 1 then some (sample_job "ls" 101 true (some 2))
      else if a = 2 then some (sample_job "sleep" 102 false (some 3))
      else if a = 3 then some (sample_job "date" 103 true none)
      else if a = 7 then some (sample_job "cat" (-1) false none)
      else none,
    active_jobs := some 1 }

/-- An OS whose forks return the pids 100, 101, ... and whose children all exit normally. -/
def sample_os : OS :=
  { fork := fun k => 100 + (k : Int), waitpid := fun _ => WaitStatus.exited 0,
    open_read_ok := fun _ => true, open_create_ok := fun _ => true, getpid := 50 }

/-- An OS like `sample_os` whose children are all terminated by signal 9. -/
def killing_os : OS :=
  { sample_os with waitpid := fun _ => WaitStatus.signaled 9 }

/-- A fresh process running `cmd`. -/
def sample_process (cmd : String) : process_t :=
  { argv := [cmd], pid := -1, completed := false, stopped := false, ifile := none,
    ofile := none }

/-- A shell with an empty registry and three parsed jobs that are not linked: job 7 is
`cat`, job 8 is the pipeline `ls | wc`, job 9 is the built-in `cd`. -/
def parsed_state : State :=
  { init_state with
    heap := fun a =>
      if a = 7 then some { commandinfo := "cat", first_process := [sample_process "cat"],
                           pgid := -1, bg := false, next := none }
      else if a = 8 then some { commandinfo := "ls | wc",
                                first_process := [sample_process "ls", sample_process "wc"],
                                pgid := -1, bg := false, next := none }
      else if a = 9 then some { commandinfo := "cd", first_process := [sample_process "cd"],
                                pgid := -1, bg := false, next := none }
      else none }

/-- The Completed and Stopped flags of the processes of job `j` when `spawn_job` has
returned. -/
def flags_after (o : Outcome Unit) (j : Ptr) : Option (List (Bool × Bool)) :=
  match o with
  | .ok _ s => (s.heap j).map (fun jb => jb.first_process.map (fun p => (p.completed, p.stopped)))
  | _ => none

/-- The log of the shell when `spawn_job` has returned. -/
def log_after (o : Outcome Unit) : Option (List Event) :=
  match o with
  | .ok _ s => some s.out
  | _ => none

/-- The descriptor tables with which the children forked so far call `execvp`. -/
def children_fds (o : Outcome Unit) : Option (List FdTable) :=
  match o with
  | .ok _ s => some (s.children.map (fun c => c.fds))
  | _ => none

/-- A parsed job at address `addr` running `cmd`, piped into the commands `more`. -/
def parsed (addr : Ptr) (cmd : String) (more : List String) : ParsedJob :=
  { addr := addr, commandinfo := cmd,
    first := { argv0 := cmd, args := [], ifile := none, ofile := none },
    more := more.map (fun c => { argv0 := c, args := [], ifile := none, ofile := none }),
    bg := false }

/-- Three command lines: `ls ; cd`, then `ls | wc`, then `jobs`. -/
def sample_lines : List (List ParsedJob) :=
  [[parsed 1 "ls" [], parsed 2 "cd" []], [parsed 3 "ls" ["wc"]], [parsed 4 "jobs" []]]

/-- The registry, read with `fuel`, in the state an outcome ends in. -/
def registry_of {α : Type} (fuel : Nat) (o : Outcome α) : Option (List Ptr) :=
  match o with
  | .ok _ s => chain_list s.heap fuel s.active_jobs
  | .exit _ s => chain_list s.heap fuel s.active_jobs
  | _ => none

/-- The value of `current_job` at which the inner loop of `main` stopped. -/
def current_of (o : Outcome (Option Ptr)) : Option (Option Ptr) :=
  match o with
  | .ok c _ => some c
  | _ => none

/-! ## Chains in the heap -/

theorem isChain_iff_isSeg (h : Ptr → Option job_t) (xs : List Ptr) (p : Option Ptr) :
    IsChain h p xs ↔ IsSeg h p xs none := by
  induction xs generalizing p with
  | nil => simp [IsChain, IsSeg]
  | cons a as ih => simp [IsChain, IsSeg, ih]

theorem isSeg_append (h : Ptr → Option job_t) (xs ys : List Ptr) (p q : Option Ptr) :
    IsSeg h p (xs ++ ys) q ↔ ∃ m, IsSeg h p xs m ∧ IsSeg h m ys q := by
  induction xs generalizing p with
  | nil => simp [IsSeg]
  | cons a as ih =>
    simp only [List.cons_append, IsSeg]
    constructor
    · rintro ⟨hp, jb, hjb, hr⟩
      obtain ⟨m, h1, h2⟩ := (ih _).mp hr
      exact ⟨m, ⟨hp, jb, hjb, h1⟩, h2⟩
    · rintro ⟨m, ⟨hp, jb, hjb, h1⟩, h2⟩
      exact ⟨hp, jb, hjb, (ih _).mpr ⟨m, h1, h2⟩⟩

/-- A segment only depends on the `next` links of its own nodes. -/
theorem isSeg_congr (h h1 : Ptr → Option job_t) (xs : List Ptr) (p q : Option Ptr)
    (hl : ∀ a ∈ xs, (h1 a).map (fun jb => jb.next) = (h a).map (fun jb => jb.next))
    (hs : IsSeg h p xs q) : IsSeg h1 p xs q := by
  induction xs generalizing p with
  | nil => exact hs
  | cons a as ih =>
    obtain ⟨hp, jb, hjb, hrest⟩ := hs
    have ha := hl a (List.mem_cons_self a as)
    rw [hjb] at ha
    cases h1a : h1 a with
    | none => rw [h1a] at ha; simp at ha
    | some jb1 =>
      rw [h1a] at ha
      simp only [Option.map_some', Option.some.injEq] at ha
      refine ⟨hp, jb1, h1a, ?_⟩
      rw [ha]
      exact ih _ (fun b hb => hl b (List.mem_cons_of_mem a hb)) hrest

theorem isSeg_frame (h h1 : Ptr → Option job_t) (xs : List Ptr) (p q : Option Ptr)
    (hl : ∀ a ∈ xs, h1 a = h a) (hs : IsSeg h p xs q) : IsSeg h1 p xs q :=
  isSeg_congr h h1 xs p q (fun a ha => by rw [hl a ha]) hs

theorem isSeg_unique (h : Ptr → Option job_t) (xs ys : List Ptr) (p : Option Ptr)
    (hx : IsSeg h p xs none) (hy : IsSeg h p ys none) : xs = ys := by
  induction xs generalizing p ys with
  | nil =>
    cases ys with
    | nil => rfl
    | cons b bs =>
      obtain ⟨hp, _⟩ := hy
      simp only [IsSeg] at hx
      rw [hx] at hp
      simp at hp
  | cons a as ih =>
    obtain ⟨hp, jb, hjb, hrest⟩ := hx
    cases ys with
    | nil =>
      simp only [IsSeg] at hy
      rw [hy] at hp
      simp at hp
    | cons b bs =>
      obtain ⟨hp1, jb1, hjb1, hrest1⟩ := hy
      rw [hp] at hp1
      simp only [Option.some.injEq] at hp1
      subst hp1
      rw [hjb] at hjb1
      simp only [Option.some.injEq] at hjb1
      subst hjb1
      rw [ih bs _ hrest hrest1]

/-- A chain that ends in NULL never visits a node twice. -/
theorem isSeg_nodup (h : Ptr → Option job_t) (xs : List Ptr) (p : Option Ptr)
    (hx : IsSeg h p xs none) : xs.Nodup := by
  induction xs generalizing p with
  | nil => exact List.nodup_nil
  | cons a as ih =>
    obtain ⟨hp, jb, hjb, hrest⟩ := hx
    refine List.nodup_cons.mpr ⟨?_, ih _ hrest⟩
    intro hmem
    obtain ⟨l1, l2, hl⟩ := List.append_of_mem hmem
    have hfull : IsSeg h (some a) (a :: as) none := ⟨rfl, jb, hjb, hrest⟩
    have hsplit := hrest
    rw [hl, isSeg_append] at hsplit
    obtain ⟨m, _, hm2⟩ := hsplit
    have hm : m = some a := hm2.1
    rw [hm] at hm2
    have heq := isSeg_unique h _ _ _ hfull hm2
    have hlen := congrArg List.length heq
    rw [hl] at hlen
    simp at hlen
    omega

theorem isChain_nodup (h : Ptr → Option job_t) (xs : List Ptr) (p : Option Ptr)
    (hx : IsChain h p xs) : xs.Nodup :=
  isSeg_nodup h xs p ((isChain_iff_isSeg h xs p).mp hx)

theorem isChain_unique (h : Ptr → Option job_t) (xs ys : List Ptr) (p : Option Ptr)
    (hx : IsChain h p xs) (hy : IsChain h p ys) : xs = ys :=
  isSeg_unique h xs ys p ((isChain_iff_isSeg h xs p).mp hx) ((isChain_iff_isSeg h ys p).mp hy)

theorem chain_list_of_isChain (h : Ptr → Option job_t) (xs : List Ptr) (p : Option Ptr)
    (fuel : Nat) (hx : IsChain h p xs) (hf : xs.length ≤ fuel) :
    chain_list h fuel p = some xs := by
  induction xs generalizing p fuel with
  | nil =>
    simp only [IsChain] at hx
    subst hx
    cases fuel <;> rfl
  | cons a as ih =>
    obtain ⟨hp, jb, hjb, hrest⟩ := hx
    subst hp
    cases fuel with
    | zero => simp at hf
    | succ n =>
      simp only [List.length_cons, Nat.add_le_add_iff_right] at hf
      simp [chain_list, hjb, ih _ n hrest hf]

/-! ## `append_active_job` -/

theorem last_job_of_isSeg (h : Ptr → Option job_t) (pre : List Ptr) (l hd : Ptr) (fuel : Nat)
    (hs : IsSeg h (some hd) (pre ++ [l]) none) (hf : pre.length + 1 ≤ fuel) :
    last_job h fuel hd = some l := by
  induction pre generalizing hd fuel with
  | nil =>
    obtain ⟨hp, jb, hjb, hrest⟩ := hs
    simp only [Option.some.injEq] at hp
    subst hp
    simp only [IsSeg] at hrest
    cases fuel with
    | zero => simp at hf
    | succ n => simp [last_job, hjb, hrest]
  | cons a as ih =>
    obtain ⟨hp, jb, hjb, hrest⟩ := hs
    simp only [Option.some.injEq] at hp
    subst hp
    cases fuel with
    | zero => simp at hf
    | succ n =>
      have hnext : ∃ b, jb.next = some b := by
        cases as with
        | nil => exact ⟨l, hrest.1⟩
        | cons b bs => exact ⟨b, hrest.1⟩
      obtain ⟨b, hb⟩ := hnext
      rw [hb] at hrest
      simp only [List.length_cons, Nat.add_le_add_iff_right] at hf
      simp [last_job, hjb, hb, ih b n hrest hf]

/-- Appending the chain `js` that starts at `j` to the registry `r`: the registry becomes
`r ++ js`; only the `next` link of the last node of `r` is written. -/
theorem append_chain (fuel : Nat) (s : State) (r js : List Ptr) (j : Ptr)
    (hr : IsChain s.heap s.active_jobs r) (hj : IsChain s.heap (some j) js)
    (hd : ∀ a ∈ js, a ∉ r) (hf : r.length ≤ fuel) :
    ∃ h1 p1, append_active_job fuel (some j) s = some { s with heap := h1, active_jobs := p1 } ∧
      IsChain h1 p1 (r ++ js) ∧
      (∀ a, a ∉ r → h1 a = s.heap a) ∧
      (∀ a jb, s.heap a = some jb → ∃ jb1, h1 a = some jb1 ∧ same_job jb jb1) ∧
      (∀ a, s.heap a = none → h1 a = none) := by
  rcases List.eq_nil_or_concat r with rfl | ⟨pre, l, hrl⟩
  · simp only [IsChain] at hr
    refine ⟨s.heap, some j, ?_, ?_, fun _ _ => rfl, ?_, fun _ ha => ha⟩
    · simp [append_active_job, hr]
    · simpa using hj
    · intro a jb ha
      exact ⟨jb, ha, rfl, rfl, rfl, rfl⟩
  · rw [List.concat_eq_append] at hrl
    subst hrl
    rw [isChain_iff_isSeg] at hr hj
    have hnd := isSeg_nodup _ _ _ hr
    have hr1 := hr
    rw [isSeg_append] at hr1
    obtain ⟨m, hpre, hl⟩ := hr1
    obtain ⟨hm, cj, hcj, hnx⟩ := hl
    simp only [IsSeg] at hnx
    have hhd : ∃ hd, s.active_jobs = some hd := by
      cases pre with
      | nil => exact ⟨l, hr.1⟩
      | cons b bs => exact ⟨b, hr.1⟩
    obtain ⟨hd0, hhd0⟩ := hhd
    have hlast : last_job s.heap fuel hd0 = some l := by
      rw [hhd0] at hr
      exact last_job_of_isSeg _ pre l hd0 fuel hr (by simpa using hf)
    have hlpre : l ∉ pre := by
      intro hmem
      rw [List.nodup_append] at hnd
      exact hnd.2.2 hmem (List.mem_singleton_self l)
    have hljs : l ∉ js := fun hmem => hd l hmem (by simp)
    refine ⟨heap_write s.heap l { cj with next := some j }, s.active_jobs, ?_, ?_, ?_, ?_, ?_⟩
    · simp [append_active_job, hhd0, hlast, hcj]
    · rw [isChain_iff_isSeg, List.append_assoc, isSeg_append]
      refine ⟨m, ?_, ?_⟩
      · refine isSeg_frame _ _ _ _ _ ?_ hpre
        intro a ha
        have : a ≠ l := fun e => hlpre (e ▸ ha)
        simp [heap_write, this]
      · refine ⟨hm, { cj with next := some j }, by simp [heap_write], ?_⟩
        refine isSeg_frame _ _ _ _ _ ?_ hj
        intro a ha
        have : a ≠ l := fun e => hljs (e ▸ ha)
        simp [heap_write, this]
    · intro a ha
      have : a ≠ l := fun e => ha (by simp [e])
      simp [heap_write, this]
    · intro a jb ha
      by_cases hal : a = l
      · subst hal
        rw [hcj] at ha
        simp only [Option.some.injEq] at ha
        subst ha
        exact ⟨{ cj with next := some j }, by simp [heap_write], rfl, rfl, rfl, rfl⟩
      · exact ⟨jb, by simp [heap_write, hal, ha], rfl, rfl, rfl, rfl⟩
    · intro a ha
      have : a ≠ l := fun e => by rw [e, hcj] at ha; simp at ha
      simp [heap_write, this, ha]

/-! ## `delete_completed_jobs_from_active_jobs` -/

theorem same_job_refl (jb : job_t) : same_job jb jb := ⟨rfl, rfl, rfl, rfl⟩

theorem same_job_trans (a b c : job_t) (h1 : same_job a b) (h2 : same_job b c) :
    same_job a c :=
  ⟨h2.1.trans h1.1, h2.2.1.trans h1.2.1, h2.2.2.1.trans h1.2.2.1, h2.2.2.2.trans h1.2.2.2⟩

theorem same_job_completed (a b : job_t) (h1 : same_job a b) :
    job_is_completed b = job_is_completed a := by
  simp [job_is_completed, h1.2.1]

/-- The loop of the cleanup, started at `current` with `rest` the nodes after it: the
completed nodes of `rest` are unlinked and freed, the others stay in order. -/
theorem delete_loop_spec (rest : List Ptr) (h : Ptr → Option job_t) (cur : Ptr) (fuel : Nat)
    (hs : IsSeg h (some cur) (cur :: rest) none) (hf : rest.length + 1 ≤ fuel) :
    ∃ h1, delete_loop fuel cur h = some h1 ∧
      IsSeg h1 (some cur) (cur :: rest.filter (fun a => !completed_at h a)) none ∧
      (∀ a, a ∉ cur :: rest → h1 a = h a) ∧
      (∀ a ∈ rest, completed_at h a = true → h1 a = none) ∧
      (∀ a jb, h a = some jb → (a ∈ rest ∧ completed_at h a = true) ∨
        ∃ jb1, h1 a = some jb1 ∧ same_job jb jb1) ∧
      (∀ a, h a = none → h1 a = none) := by
  induction rest generalizing h cur fuel with
  | nil =>
    obtain ⟨_, cj, hcj, hnx⟩ := hs
    simp only [IsSeg] at hnx
    cases fuel with
    | zero => simp at hf
    | succ n =>
      refine ⟨h, by simp [delete_loop, hcj, hnx], ?_, fun _ _ => rfl, ?_, ?_, fun _ ha => ha⟩
      · exact ⟨rfl, cj, hcj, hnx⟩
      · intro a ha
        simp at ha
      · intro a jb ha
        exact Or.inr ⟨jb, ha, same_job_refl jb⟩
  | cons nx rest1 ih =>
    have hnd := isSeg_nodup _ _ _ hs
    obtain ⟨_, cj, hcj, hnx⟩ := hs
    obtain ⟨hcn, tf, htf, hrest⟩ := hnx
    have hcur_nx : cur ≠ nx := by
      intro e
      simp [e] at hnd
    have hcur_rest : cur ∉ rest1 := by
      intro hm
      simp [hm] at hnd
    have hnx_rest : nx ∉ rest1 := by
      intro hm
      simp [hm] at hnd
    cases fuel with
    | zero => simp at hf
    | succ n =>
      simp only [List.length_cons, Nat.add_le_add_iff_right] at hf
      by_cases hc : job_is_completed tf = true
      · -- the node after `current` is unlinked and freed
        have hcat : completed_at h nx = true := by simp [completed_at, htf, hc]
        have h2cur : free_job (heap_write h cur { cj with next := tf.next }) nx cur =
            some { cj with next := tf.next } := by
          simp [free_job, heap_write, hcur_nx]
        have h2other : ∀ a, a ≠ cur → a ≠ nx →
            free_job (heap_write h cur { cj with next := tf.next }) nx a = h a := by
          intro a h1 h2
          simp [free_job, heap_write, h1, h2]
        have hs2 : IsSeg (free_job (heap_write h cur { cj with next := tf.next }) nx)
            (some cur) (cur :: rest1) none := by
          refine ⟨rfl, _, h2cur, ?_⟩
          refine isSeg_frame _ _ _ _ _ ?_ hrest
          intro a ha
          exact h2other a (fun e => hcur_rest (e ▸ ha)) (fun e => hnx_rest (e ▸ ha))
        obtain ⟨h1, hrun, hseg, hframe, hfreed, hkept, hun⟩ := ih _ cur n hs2 hf
        have hfilt : rest1.filter
            (fun a => !completed_at (free_job (heap_write h cur { cj with next := tf.next }) nx) a)
            = rest1.filter (fun a => !completed_at h a) := by
          apply List.filter_congr
          intro a ha
          have := h2other a (fun e => hcur_rest (e ▸ ha)) (fun e => hnx_rest (e ▸ ha))
          simp [completed_at, this]
        refine ⟨h1, ?_, ?_, ?_, ?_, ?_, ?_⟩
        · simp [delete_loop, hcj, hcn, htf, hc, hrun]
        · rw [List.filter_cons]
          simp only [hcat, Bool.not_true, Bool.false_eq_true, if_false]
          rw [← hfilt]
          exact hseg
        · intro a ha
          simp only [List.mem_cons, not_or] at ha
          rw [hframe a (by simp [ha.1, ha.2.2])]
          exact h2other a ha.1 ha.2.1
        · intro a ha hca
          rcases List.mem_cons.mp ha with e | hm
          · subst e
            rw [hframe a (by simp [hcur_nx.symm, hnx_rest])]
            simp [free_job]
          · apply hfreed a hm
            have := h2other a (fun e => hcur_rest (e ▸ hm)) (fun e => hnx_rest (e ▸ hm))
            simpa [completed_at, this] using hca
        · intro a jb ha
          by_cases e1 : a = nx
          · subst e1
            exact Or.inl ⟨List.mem_cons_self _ _, hcat⟩
          · by_cases e2 : a = cur
            · subst e2
              rw [hcj] at ha
              simp only [Option.some.injEq] at ha
              subst ha
              rcases hkept a _ h2cur with ⟨hm, _⟩ | ⟨jb1, hj1, hsame⟩
              · exact absurd hm hcur_rest
              · exact Or.inr ⟨jb1, hj1, same_job_trans _ _ _ ⟨rfl, rfl, rfl, rfl⟩ hsame⟩
            · have h2a := h2other a e2 e1
              rcases hkept a jb (by rw [h2a]; exact ha) with ⟨hm, hca⟩ | hr
              · left
                refine ⟨List.mem_cons_of_mem _ hm, ?_⟩
                simpa [completed_at, h2a] using hca
              · exact Or.inr hr
        · intro a ha
          apply hun
          by_cases e1 : a = nx
          · simp [free_job, e1]
          · have e2 : a ≠ cur := fun e => by rw [e, hcj] at ha; simp at ha
            rw [h2other a e2 e1]
            exact ha
      · -- the node after `current` stays; the loop moves on to it
        have hcat : completed_at h nx = false := by simp [completed_at, htf, hc]
        have hs2 : IsSeg h (some nx) (nx :: rest1) none := ⟨rfl, tf, htf, hrest⟩
        obtain ⟨h1, hrun, hseg, hframe, hfreed, hkept, hun⟩ := ih h nx n hs2 hf
        have h1cur : h1 cur = some cj := by
          rw [hframe cur (by simp [hcur_nx, hcur_rest])]
          exact hcj
        refine ⟨h1, ?_, ?_, ?_, ?_, ?_, hun⟩
        · simp [delete_loop, hcj, hcn, htf, hc, hrun]
        · rw [List.filter_cons]
          simp only [hcat, Bool.not_false, if_true]
          exact ⟨rfl, cj, h1cur, by rw [hcn]; exact hseg⟩
        · intro a ha
          simp only [List.mem_cons, not_or] at ha
          exact hframe a (by simp [ha.2.1, ha.2.2])
        · intro a ha hca
          rcases List.mem_cons.mp ha with e | hm
          · subst e
            rw [hcat] at hca
            simp at hca
          · exact hfreed a hm hca
        · intro a jb ha
          rcases hkept a jb ha with ⟨hm, hca⟩ | hr
          · exact Or.inl ⟨List.mem_cons_of_mem _ hm, hca⟩
          · exact Or.inr hr

/-- The cleanup on a well-formed registry `xs`: it returns, the registry is `xs` without
its completed jobs, in the same order; the removed jobs are freed and the others keep their
contents. -/
theorem delete_completed_spec (fuel : Nat) (s : State) (xs : List Ptr)
    (hr : IsChain s.heap s.active_jobs xs) (hf : xs.length ≤ fuel) :
    ∃ h1 p1, delete_completed_jobs_from_active_jobs fuel s =
        some { s with heap := h1, active_jobs := p1 } ∧
      IsChain h1 p1 (xs.filter (fun a => !completed_at s.heap a)) ∧
      (∀ a, a ∉ xs → h1 a = s.heap a) ∧
      (∀ a ∈ xs, completed_at s.heap a = true → h1 a = none) ∧
      (∀ a jb, s.heap a = some jb → (a ∈ xs ∧ completed_at s.heap a = true) ∨
        ∃ jb1, h1 a = some jb1 ∧ same_job jb jb1) ∧
      (∀ a, s.heap a = none → h1 a = none) := by
  cases xs with
  | nil =>
    simp only [IsChain] at hr
    refine ⟨s.heap, none, ?_, ?_, fun _ _ => rfl, ?_, ?_, fun _ ha => ha⟩
    · simp [delete_completed_jobs_from_active_jobs, hr]
      rw [← hr]
    · simp [IsChain]
    · intro a ha
      simp at ha
    · intro a jb ha
      exact Or.inr ⟨jb, ha, same_job_refl jb⟩
  | cons hd rest =>
    rw [isChain_iff_isSeg] at hr
    have hnd := isSeg_nodup _ _ _ hr
    have hp : s.active_jobs = some hd := hr.1
    rw [hp] at hr
    obtain ⟨h1, hrun, hseg, hframe, hfreed, hkept, hun⟩ :=
      delete_loop_spec rest s.heap hd fuel hr (by simpa using hf)
    have hhd_rest : hd ∉ rest := by
      intro hm
      simp [hm] at hnd
    obtain ⟨_, hj0, hhj0, _⟩ := hr
    obtain ⟨_, hj, hhj, htail⟩ := hseg
    have hsame : same_job hj0 hj := by
      rcases hkept hd hj0 hhj0 with ⟨hm, _⟩ | ⟨jb1, hj1, hs1⟩
      · exact absurd hm hhd_rest
      · rw [hhj] at hj1
        simp only [Option.some.injEq] at hj1
        rw [hj1]
        exact hs1
    have hcomp : job_is_completed hj = completed_at s.heap hd := by
      rw [same_job_completed _ _ hsame]
      simp [completed_at, hhj0]
    by_cases hc : job_is_completed hj = true
    · -- the head is completed: it is removed too
      have hcat : completed_at s.heap hd = true := by rw [← hcomp]; exact hc
      have hfilt_mem : ∀ a ∈ rest.filter (fun a => !completed_at s.heap a), a ≠ hd := by
        intro a ha e
        exact hhd_rest (e ▸ (List.mem_filter.mp ha).1)
      refine ⟨free_job h1 hd, hj.next, ?_, ?_, ?_, ?_, ?_, ?_⟩
      · simp [delete_completed_jobs_from_active_jobs, hp, hrun, hhj, hc]
      · rw [isChain_iff_isSeg, List.filter_cons]
        simp only [hcat, Bool.not_true, Bool.false_eq_true, if_false]
        refine isSeg_frame _ _ _ _ _ ?_ htail
        intro a ha
        simp [free_job, hfilt_mem a ha]
      · intro a ha
        have e : a ≠ hd := fun e => ha (by simp [e])
        simp only [free_job, e, if_false]
        exact hframe a ha
      · intro a ha hca
        rcases List.mem_cons.mp ha with e | hm
        · simp [free_job, e]
        · by_cases e : a = hd
          · simp [free_job, e]
          · simp only [free_job, e, if_false]
            exact hfreed a hm hca
      · intro a jb ha
        by_cases e : a = hd
        · subst e
          exact Or.inl ⟨List.mem_cons_self _ _, hcat⟩
        · rcases hkept a jb ha with ⟨hm, hca⟩ | ⟨jb1, hj1, hs1⟩
          · exact Or.inl ⟨List.mem_cons_of_mem _ hm, hca⟩
          · exact Or.inr ⟨jb1, by simp [free_job, e, hj1], hs1⟩
      · intro a ha
        by_cases e : a = hd
        · simp [free_job, e]
        · simp only [free_job, e, if_false]
          exact hun a ha
    · -- the head stays
      have hcat : completed_at s.heap hd = false := by
        rw [← hcomp]
        simpa using hc
      refine ⟨h1, s.active_jobs, ?_, ?_, hframe, ?_, ?_, hun⟩
      · simp [delete_completed_jobs_from_active_jobs, hp, hrun, hhj, hc]
      · rw [isChain_iff_isSeg, List.filter_cons]
        simp only [hcat, Bool.not_false, if_true]
        exact ⟨hp, hj, hhj, htail⟩
      · intro a ha hca
        rcases List.mem_cons.mp ha with e | hm
        · rw [e, hcat] at hca
          simp at hca
        · exact hfreed a hm hca
      · intro a jb ha
        rcases hkept a jb ha with ⟨hm, hca⟩ | hr1
        · exact Or.inl ⟨List.mem_cons_of_mem _ hm, hca⟩
        · exact Or.inr hr1

theorem isSeg_mem_alloc (h : Ptr → Option job_t) (xs : List Ptr) (p q : Option Ptr)
    (hs : IsSeg h p xs q) (a : Ptr) (ha : a ∈ xs) : ∃ jb, h a = some jb := by
  induction xs generalizing p with
  | nil => simp at ha
  | cons b bs ih =>
    obtain ⟨_, jb, hjb, hrest⟩ := hs
    rcases List.mem_cons.mp ha with e | hm
    · exact ⟨jb, e ▸ hjb⟩
    · exact ih _ hrest hm

theorem isChain_mem_alloc (h : Ptr → Option job_t) (xs : List Ptr) (p : Option Ptr)
    (hs : IsChain h p xs) (a : Ptr) (ha : a ∈ xs) : ∃ jb, h a = some jb :=
  isSeg_mem_alloc h xs p none ((isChain_iff_isSeg h xs p).mp hs) a ha

theorem sample_state_chain : IsChain sample_state.heap sample_state.active_jobs [1, 2, 3] :=
  ⟨rfl, _, rfl, rfl, _, rfl, rfl, _, rfl, rfl⟩

/-! ## Claims about the registry -/

/-- C1: on every well-formed registry `xs` (empty or not, with completed jobs at the head,
inside, at the tail or next to each other) the cleanup returns, and the registry is then
exactly `xs` with the completed jobs filtered out, survivors in their original order.  A
registered job is removed, and its node freed, if and only if every one of its processes
is Completed; a survivor keeps its contents, and jobs outside the registry are untouched. -/
theorem delete_completed_jobs_filter (fuel : Nat) (s : State) (xs : List Ptr)
    (hr : IsChain s.heap s.active_jobs xs) (hf : xs.length ≤ fuel) :
    ∃ s1, delete_completed_jobs_from_active_jobs fuel s = some s1 ∧
      IsChain s1.heap s1.active_jobs (xs.filter (fun a => !completed_at s.heap a)) ∧
      (∀ a ∈ xs, ∃ jb, s.heap a = some jb ∧
        (a ∉ xs.filter (fun a => !completed_at s.heap a) ↔
          ∀ p ∈ jb.first_process, p.completed = true) ∧
        (s1.heap a = none ↔ ∀ p ∈ jb.first_process, p.completed = true) ∧
        ((∃ p ∈ jb.first_process, p.completed = false) →
          ∃ jb1, s1.heap a = some jb1 ∧ same_job jb jb1)) ∧
      (∀ a, a ∉ xs → s1.heap a = s.heap a) := by
  obtain ⟨h1, p1, hrun, hchain, hframe, hfreed, hkept, _⟩ := delete_completed_spec fuel s xs hr hf
  refine ⟨_, hrun, hchain, ?_, hframe⟩
  intro a ha
  obtain ⟨jb, hjb⟩ := isChain_mem_alloc _ _ _ hr a ha
  have hcat : completed_at s.heap a = job_is_completed jb := by simp [completed_at, hjb]
  have hall : job_is_completed jb = true ↔ ∀ p ∈ jb.first_process, p.completed = true := by
    simp [job_is_completed, List.all_eq_true]
  refine ⟨jb, hjb, ?_, ?_, ?_⟩
  · rw [← hall, ← hcat]
    simp [List.mem_filter, ha]
  · rw [← hall, ← hcat]
    constructor
    · intro hnone
      rcases hkept a jb hjb with ⟨_, hc⟩ | ⟨jb1, hj1, _⟩
      · exact hc
      · change h1 a = none at hnone
        rw [hj1] at hnone
        simp at hnone
    · intro hc
      exact hfreed a ha hc
  · rintro ⟨p, hp, hpc⟩
    rcases hkept a jb hjb with ⟨_, hc⟩ | hr1
    · rw [hcat, hall] at hc
      rw [hc p hp] at hpc
      simp at hpc
    · exact hr1

/-- C1 at the registry 1, 2, 3 of `sample_state`, whose jobs 1 and 3 are completed. -/
theorem delete_completed_jobs_filter_witness :
    IsChain sample_state.heap sample_state.active_jobs [1, 2, 3] ∧ [1, 2, 3].length ≤ 3 ∧
    ∃ s1, delete_completed_jobs_from_active_jobs 3 sample_state = some s1 ∧
      IsChain s1.heap s1.active_jobs
        ([1, 2, 3].filter (fun a => !completed_at sample_state.heap a)) ∧
      (∀ a ∈ [1, 2, 3], ∃ jb, sample_state.heap a = some jb ∧
        (a ∉ [1, 2, 3].filter (fun a => !completed_at sample_state.heap a) ↔
          ∀ p ∈ jb.first_process, p.completed = true) ∧
        (s1.heap a = none ↔ ∀ p ∈ jb.first_process, p.completed = true) ∧
        ((∃ p ∈ jb.first_process, p.completed = false) →
          ∃ jb1, s1.heap a = some jb1 ∧ same_job jb jb1)) ∧
      (∀ a, a ∉ [1, 2, 3] → s1.heap a = sample_state.heap a) :=
  ⟨sample_state_chain, by decide,
    delete_completed_jobs_filter 3 sample_state [1, 2, 3] sample_state_chain (by decide)⟩

/-- Appending one job that has no successor. -/
theorem append_single (fuel : Nat) (s : State) (r : List Ptr)
    (hr : IsChain s.heap s.active_jobs r) (hf : r.length ≤ fuel)
    (j : Ptr) (jb : job_t) (hj : s.heap j = some jb) (hn : jb.next = none) (hnot : j ∉ r) :
    ∃ s1, append_active_job fuel (some j) s = some s1 ∧
      IsChain s1.heap s1.active_jobs (r ++ [j]) ∧
      (∀ a jb0, s.heap a = some jb0 → ∃ jb1, s1.heap a = some jb1 ∧ same_job jb0 jb1) ∧
      (∀ a, a ∉ r → s1.heap a = s.heap a) := by
  have hjc : IsChain s.heap (some j) [j] := ⟨rfl, jb, hj, hn⟩
  obtain ⟨h1, p1, hrun, hchain, hframe, hkept, _⟩ :=
    append_chain fuel s r [j] j hr hjc (by simpa using hnot) hf
  exact ⟨_, hrun, hchain, hkept, hframe⟩

/-- C5, amended: `append_active_job` preserves arrival order.  On a well-formed registry
`r`, appending NULL changes nothing; appending a job `j` without successor that is not yet
in `r` yields the registry `r` followed by `j`, every job keeping its contents; and
appending three distinct such jobs `a`, `b`, `c` in turn to the empty registry yields
`[a, b, c]`. -/
theorem append_active_job_order (fuel : Nat) (s : State) (r : List Ptr)
    (hr : IsChain s.heap s.active_jobs r) (hf : r.length ≤ fuel) :
    append_active_job fuel none s = some s ∧
    (∀ j jb, s.heap j = some jb → jb.next = none → j ∉ r →
      ∃ s1, append_active_job fuel (some j) s = some s1 ∧
        IsChain s1.heap s1.active_jobs (r ++ [j]) ∧
        (∀ a jb0, s.heap a = some jb0 → ∃ jb1, s1.heap a = some jb1 ∧ same_job jb0 jb1) ∧
        (∀ a, a ∉ r → s1.heap a = s.heap a)) ∧
    (r = [] → 2 ≤ fuel → ∀ a b c ja jb jc, s.heap a = some ja → s.heap b = some jb →
      s.heap c = some jc → ja.next = none → jb.next = none → jc.next = none →
      a ≠ b → a ≠ c → b ≠ c →
      ∃ s1 s2 s3, append_active_job fuel (some a) s = some s1 ∧
        append_active_job fuel (some b) s1 = some s2 ∧
        append_active_job fuel (some c) s2 = some s3 ∧
        IsChain s3.heap s3.active_jobs [a, b, c]) := by
  refine ⟨rfl, ?_, ?_⟩
  · intro j jb hj hn hnot
    exact append_single fuel s r hr hf j jb hj hn hnot
  · intro hnil h2 a b c ja jb jc ha hb hc hna hnb hnc hab hac hbc
    subst hnil
    obtain ⟨s1, hrun1, hch1, _, hfr1⟩ := append_single fuel s [] hr hf a ja ha hna (by simp)
    have hb1 : s1.heap b = some jb := by rw [hfr1 b (by simp)]; exact hb
    have hc1 : s1.heap c = some jc := by rw [hfr1 c (by simp)]; exact hc
    obtain ⟨s2, hrun2, hch2, _, hfr2⟩ :=
      append_single fuel s1 [a] hch1 (by simp; omega) b jb hb1 hnb (by simp [Ne.symm hab])
    have hc2 : s2.heap c = some jc := by
      rw [hfr2 c (by simp [Ne.symm hac])]
      exact hc1
    obtain ⟨s3, hrun3, hch3, _, _⟩ :=
      append_single fuel s2 [a, b] hch2 (by simpa using h2) c jc hc2 hnc
        (by simp [Ne.symm hac, Ne.symm hbc])
    exact ⟨s1, s2, s3, hrun1, hrun2, hrun3, hch3⟩

/-- C5, amended, at the registry 1, 2, 3 of `sample_state` and the unregistered job 7. -/
theorem append_active_job_order_witness :
    IsChain sample_state.heap sample_state.active_jobs [1, 2, 3] ∧ [1, 2, 3].length ≤ 3 ∧
    ∃ s1, append_active_job 3 (some 7) sample_state = some s1 ∧
      IsChain s1.heap s1.active_jobs ([1, 2, 3] ++ [7]) :=
  ⟨sample_state_chain, by decide,
    match ((append_active_job_order 3 sample_state [1, 2, 3] sample_state_chain
      (by decide)).2.1 7 (sample_job "cat" (-1) false none) rfl rfl (by decide)) with
    | ⟨s1, h1, h2, _⟩ => ⟨s1, h1, h2⟩⟩

/-- C5 as stated fails for a job that is already registered: job 3, the tail of the registry
1, 2, 3 of `sample_state`, has no successor link; appending it again makes its `next` link
point to itself, so the registry is not 1, 2, 3 followed by 3, and no traversal of it ends. -/
theorem append_registered_job_makes_cycle :
    (sample_state.heap 3).map (fun jb => jb.next) = some none ∧
    ((append_active_job 3 (some 3) sample_state).bind (fun s1 => s1.heap 3)).map
      (fun jb => jb.next) = some (some 3) ∧
    (append_active_job 3 (some 3) sample_state).bind
      (fun s1 => chain_list s1.heap 8 s1.active_jobs) = none ∧
    ¬ ∃ s1, append_active_job 3 (some 3) sample_state = some s1 ∧
      IsChain s1.heap s1.active_jobs ([1, 2, 3] ++ [3]) := by
  refine ⟨by decide, by decide, by decide, ?_⟩
  rintro ⟨s1, _, hc⟩
  have hnd := isChain_nodup _ _ _ hc
  revert hnd
  decide

/-! ## The `jobs` built-in -/

theorem jobs_loop_spec (h : Ptr → Option job_t) (xs : List Ptr) (p : Option Ptr) (fuel : Nat)
    (acc : List Event) (hs : IsSeg h p xs none) (hf : xs.length ≤ fuel) :
    ∃ jbs : List job_t, xs.map h = jbs.map some ∧
      jobs_loop h fuel p acc = some (acc ++ jbs.map status_message) := by
  induction xs generalizing p fuel acc with
  | nil =>
    simp only [IsSeg] at hs
    subst hs
    refine ⟨[], rfl, ?_⟩
    cases fuel <;> simp [jobs_loop]
  | cons a as ih =>
    obtain ⟨hp, jb, hjb, hrest⟩ := hs
    subst hp
    cases fuel with
    | zero => simp at hf
    | succ n =>
      simp only [List.length_cons, Nat.add_le_add_iff_right] at hf
      obtain ⟨jbs, hmap, hrun⟩ := ih jb.next n (acc ++ [status_message jb]) hrest hf
      refine ⟨jb :: jbs, by simp [hjb, hmap], ?_⟩
      simp [jobs_loop, hjb, hrun]

/-- C6: on every well-formed registry `xs` the `jobs` built-in returns handled (true).  It
emits exactly one line per registered job, in registry order, of the form
`<pgid>(<status-word>): <command_text>`, the word being Completed when every process of the
job is Completed, otherwise Stopped when the job is stopped, otherwise Running; so it emits
nothing on the empty registry.  Afterwards the registry holds exactly the jobs that were
not Completed; a registry of one Completed job gives one line tagged Completed and leaves
the registry empty. -/
theorem jobs_builtin_lists_then_cleans (fuel : Nat) (s : State) (xs : List Ptr)
    (last_job : Ptr) (argc : Nat) (args : List String)
    (hr : IsChain s.heap s.active_jobs xs) (hf : xs.length ≤ fuel) :
    ∃ (s1 : State) (jbs : List job_t),
      builtin_cmd fuel last_job argc ("jobs" :: args) s = Outcome.ok true s1 ∧
      xs.map s.heap = jbs.map some ∧
      s1.out = s.out ++ jbs.map (fun jb => Event.status_line
        (toString jb.pgid ++ "(" ++
          (if job_is_completed jb then "Completed"
           else if job_is_stopped jb then "Stopped" else "Running") ++
          "): " ++ jb.commandinfo)) ∧
      IsChain s1.heap s1.active_jobs (xs.filter (fun a => !completed_at s.heap a)) ∧
      (xs = [] → s1.out = s.out) ∧
      (∀ a jb, xs = [a] → s.heap a = some jb → job_is_completed jb = true →
        s1.out = s.out ++
          [Event.status_line (toString jb.pgid ++ "(Completed): " ++ jb.commandinfo)] ∧
        s1.active_jobs = none) := by
  obtain ⟨jbs, hmap, hloop⟩ :=
    jobs_loop_spec s.heap xs s.active_jobs fuel [] ((isChain_iff_isSeg _ _ _).mp hr) hf
  obtain ⟨h1, p1, hdel, hchain, _⟩ :=
    delete_completed_spec fuel { s with out := s.out ++ jbs.map status_message } xs hr hf
  have hfmt : ∀ jb : job_t, status_message jb = Event.status_line
      (toString jb.pgid ++ "(" ++
        (if job_is_completed jb then "Completed"
         else if job_is_stopped jb then "Stopped" else "Running") ++
        "): " ++ jb.commandinfo) := by
    intro jb
    simp only [status_message, print_job_status_message]
    split
    · rfl
    · split <;> rfl
  have hout : s.out ++ jbs.map status_message = s.out ++ jbs.map (fun jb => Event.status_line
      (toString jb.pgid ++ "(" ++
        (if job_is_completed jb then "Completed"
         else if job_is_stopped jb then "Stopped" else "Running") ++
        "): " ++ jb.commandinfo)) := by
    congr 1
    exact List.map_congr_left (fun jb _ => hfmt jb)
  have hrun : builtin_cmd fuel last_job argc ("jobs" :: args) s = Outcome.ok true
      { s with out := s.out ++ jbs.map status_message, heap := h1, active_jobs := p1 } := by
    simp only [builtin_cmd, List.head?_cons]
    have h1 : ("jobs" : String) ≠ "quit" := by decide
    simp only [h1, if_false, if_true, hloop, List.nil_append, hdel]
  refine ⟨_, jbs, hrun, hmap, hout, hchain, ?_, ?_⟩
  · intro hnil
    subst hnil
    have : jbs = [] := by simpa using hmap.symm
    simp [this]
  · intro a jb hxs ha hc
    subst hxs
    have hj : jbs = [jb] := by
      simp only [List.map_cons, List.map_nil, ha] at hmap
      cases jbs with
      | nil => simp at hmap
      | cons b bs =>
        cases bs with
        | nil => simpa using hmap.symm
        | cons c cs => simp at hmap
    subst hj
    constructor
    · show s.out ++ List.map status_message [jb] = _
      simp [status_message, hc, print_job_status_message, String.append_assoc]
    · have hca : completed_at s.heap a = true := by simp [completed_at, ha, hc]
      have hnil : IsChain h1 p1 [] := by simpa [hca] using hchain
      exact hnil

/-! ## `spawn_job` on a job without built-ins -/

theorem builtin_cmd_not_builtin (fuel : Nat) (j : Ptr) (argc : Nat) (argv : List String)
    (s : State) (hn : not_builtin argv = true) :
    builtin_cmd fuel j argc argv s = Outcome.ok false s := by
  unfold not_builtin at hn
  unfold builtin_cmd
  cases hh : argv.head? with
  | none => rw [hh] at hn; simp at hn
  | some cmd =>
    rw [hh] at hn
    simp only [builtin_names, Bool.not_eq_true', List.contains_eq_any_beq, List.any_cons,
      List.any_nil, Bool.or_false, Bool.or_eq_false_iff, beq_eq_false_iff_ne, ne_eq] at hn
    obtain ⟨h1, h2, h3, h4, h5⟩ := hn
    simp [h1, h2, h3, h4, h5]

theorem getElem?_append_length (pre : List process_t) (p : process_t) (rest : List process_t) :
    (pre ++ p :: rest)[pre.length]? = some p := by
  induction pre with
  | nil => simp
  | cons a as ih => simpa using ih

theorem set_append_length (pre : List process_t) (p q : process_t) (rest : List process_t) :
    (pre ++ p :: rest).set pre.length q = pre ++ q :: rest := by
  induction pre with
  | nil => rfl
  | cons a as ih => simp [List.set, ih]

theorem forked_pids_append (a b : List Event) :
    forked_pids (a ++ b) = forked_pids a ++ forked_pids b := by
  simp [forked_pids, List.filterMap_append]

theorem waited_append (a b : List Event) : waited (a ++ b) = waited a ++ waited b := by
  simp [waited, List.filterMap_append]

theorem setpgid_calls_append (a b : List Event) :
    setpgid_calls (a ++ b) = setpgid_calls a ++ setpgid_calls b := by
  simp [setpgid_calls, List.filterMap_append]

theorem try_io_redirection_pid (os : OS) (p : process_t) (c : ChildExec) :
    (try_io_redirection os p c).pid = c.pid := by
  unfold try_io_redirection
  cases p.ifile <;> cases p.ofile <;> simp <;> repeat (split <;> simp)

theorem try_io_redirection_setpgid (os : OS) (p : process_t) (c : ChildExec) :
    setpgid_calls (try_io_redirection os p c).calls = setpgid_calls c.calls := by
  unfold try_io_redirection
  cases p.ifile <;> cases p.ofile <;> simp <;>
    repeat (split <;> simp [setpgid_calls_append, setpgid_calls])

theorem child_branch_pid (os : OS) (mypid : Int) (jb : job_t) (i : Nat) (p : process_t)
    (last fg piping : Bool) (pipeline prev_pipe : Nat × Nat) (fds : FdTable) :
    (child_branch os mypid jb i p last fg piping pipeline prev_pipe fds).pid = mypid := by
  unfold child_branch
  simp only
  split
  · split
    · simp [try_io_redirection_pid]
    · split <;> simp [try_io_redirection_pid]
  · simp [try_io_redirection_pid]

theorem child_branch_setpgid (os : OS) (mypid : Int) (jb : job_t) (i : Nat) (p : process_t)
    (last fg piping : Bool) (pipeline prev_pipe : Nat × Nat) (fds : FdTable) :
    setpgid_calls (child_branch os mypid jb i p last fg piping pipeline prev_pipe fds).calls =
      [(mypid, if jb.pgid < 0 then mypid else jb.pgid)] := by
  have key : setpgid_calls (new_child mypid jb i { p with pid := mypid } fg).2.2 =
      [(mypid, if jb.pgid < 0 then mypid else jb.pgid)] := by
    unfold new_child set_child_pgid
    cases fg <;> simp [setpgid_calls] <;> split <;> simp
  unfold child_branch
  simp only
  split
  · split
    · simp [try_io_redirection_setpgid, key]
    · split <;> simp [try_io_redirection_setpgid, key]
  · simp [try_io_redirection_setpgid, key]

theorem mark_status_log (st : WaitStatus) (p : process_t) :
    forked_pids (mark_status st p).2 = [] ∧ waited (mark_status st p).2 = [] ∧
      setpgid_calls (mark_status st p).2 = [] ∧ (mark_status st p).1.pid = p.pid := by
  unfold mark_status
  split
  · simp [forked_pids, waited, setpgid_calls]
  · split <;> simp [forked_pids, waited, setpgid_calls]

/-- The wait loop of a piped job: every stage is waited on, in pipeline order. -/
theorem wait_all_spec (os : OS) (j : Ptr) (sn : List process_t) :
    ∀ (pre ps : List process_t) (s : State) (jc : job_t),
      s.heap j = some jc → jc.first_process = pre ++ ps → sn.length = ps.length →
      ∃ s1 jf evs, wait_all os j sn pre.length s = some s1 ∧
        s1.heap j = some jf ∧ jf.first_process = pre ++ marked os ps s.nwait ∧
        jf.pgid = jc.pgid ∧ s1.out = s.out ++ evs ∧ s1.children = s.children ∧
        forked_pids evs = [] ∧ setpgid_calls evs = [] ∧
        waited evs = wait_log os ps s.nwait := by
  induction sn with
  | nil =>
    intro pre ps s jc hj hl hlen
    have : ps = [] := by
      cases ps with
      | nil => rfl
      | cons a as => simp at hlen
    subst this
    exact ⟨s, jc, [], rfl, hj, by simpa [marked] using hl, rfl, by simp, rfl, rfl, rfl, rfl⟩
  | cons x sn ih =>
    intro pre ps s jc hj hl hlen
    cases ps with
    | nil => simp at hlen
    | cons p rest =>
      simp only [List.length_cons, Nat.add_right_cancel_iff] at hlen
      have hget : jc.first_process[pre.length]? = some p := by
        rw [hl]
        exact getElem?_append_length pre p rest
      have hset : ∀ q, jc.first_process.set pre.length q = (pre ++ [q]) ++ rest := by
        intro q
        rw [hl, set_append_length]
        simp
      obtain ⟨hl1, hl2, hl3, hl4⟩ := mark_status_log (os.waitpid s.nwait) p
      have hwp : wait_process os j pre.length p.pid s = some
          { s with heap := heap_write s.heap j
                     { jc with first_process :=
                        (pre ++ [(mark_status (os.waitpid s.nwait) p).1]) ++ rest },
                   nwait := s.nwait + 1,
                   out := s.out ++ Event.waitpid p.pid (os.waitpid s.nwait) ::
                     (mark_status (os.waitpid s.nwait) p).2 } := by
        simp [wait_process, hj, hget, hset]
      obtain ⟨s1, jf, evs, hrun, hjf, hfp, hpg, hout, hch, hf1, hf2, hf3⟩ :=
        ih (pre ++ [(mark_status (os.waitpid s.nwait) p).1]) rest
          { s with heap := heap_write s.heap j
                     { jc with first_process :=
                        (pre ++ [(mark_status (os.waitpid s.nwait) p).1]) ++ rest },
                   nwait := s.nwait + 1,
                   out := s.out ++ Event.waitpid p.pid (os.waitpid s.nwait) ::
                     (mark_status (os.waitpid s.nwait) p).2 }
          { jc with first_process := (pre ++ [(mark_status (os.waitpid s.nwait) p).1]) ++ rest }
          (by simp [heap_write]) rfl hlen
      refine ⟨s1, jf, Event.waitpid p.pid (os.waitpid s.nwait) ::
        (mark_status (os.waitpid s.nwait) p).2 ++ evs, ?_, hjf, ?_, hpg, ?_, hch, ?_, ?_, ?_⟩
      · simp only [List.length_append, List.length_singleton] at hrun
        simp only [wait_all, hj, hget, hwp]
        exact hrun
      · simpa [marked] using hfp
      · simpa using hout
      · rw [List.cons_append, ← List.singleton_append, forked_pids_append, forked_pids_append,
          hl1, hf1]
        simp [forked_pids]
      · rw [List.cons_append, ← List.singleton_append, setpgid_calls_append,
          setpgid_calls_append, hl3, hf2]
        simp [setpgid_calls]
      · rw [List.cons_append, ← List.singleton_append, waited_append, waited_append, hl2, hf3]
        simp [waited, wait_log]

theorem sys_pipe_fields (s : State) :
    (sys_pipe s).2.heap = s.heap ∧ (sys_pipe s).2.nfork = s.nfork ∧
      (sys_pipe s).2.nwait = s.nwait ∧ (sys_pipe s).2.children = s.children ∧
      (sys_pipe s).2.active_jobs = s.active_jobs ∧ (sys_pipe s).2.jobs_added = s.jobs_added ∧
      (sys_pipe s).2.out = s.out ++ [Event.pipe (sys_pipe s).1.1 (sys_pipe s).1.2] := by
  simp [sys_pipe]

/-- One turn of the spawn loop for a stage of a piped job that is no built-in, in the
shell, once the job is registered. -/
theorem spawn_loop_piped_step (os : OS) (fuel : Nat) (j : Ptr) (fg : Bool) (p : process_t)
    (rest : List process_t) (i : Nat) (piping : Bool) (prev : Nat × Nat) (s : State)
    (jc : job_t) (pc : process_t)
    (hn : not_builtin p.argv = true) (ha : s.jobs_added = true)
    (hp : (piping || !rest.isEmpty) = true) (hj : s.heap j = some jc)
    (hi : jc.first_process[i]? = some pc) (hpos : 0 < os.fork s.nfork) :
    spawn_loop os fuel j fg (p :: rest) i piping prev s =
      spawn_loop os fuel j fg rest (i + 1) true (sys_pipe s).1
        { (sys_pipe s).2 with
          heap := heap_write s.heap j
            { jc with first_process := jc.first_process.set i { pc with pid := os.fork s.nfork },
                      pgid := if jc.pgid < 0 then os.fork s.nfork else jc.pgid },
          nfork := s.nfork + 1,
          out := (sys_pipe s).2.out ++ [Event.fork (os.fork s.nfork),
            Event.setpgid (os.fork s.nfork) (if jc.pgid < 0 then os.fork s.nfork else jc.pgid)],
          children := s.children ++ [child_branch os (os.fork s.nfork) jc i pc rest.isEmpty fg
            true (sys_pipe s).1 prev (sys_pipe s).2.fds] } := by
  obtain ⟨e1, e2, e3, e4, e5, e6, e7⟩ := sys_pipe_fields s
  have hne1 : os.fork s.nfork ≠ -1 := by omega
  have hne0 : os.fork s.nfork ≠ 0 := by omega
  rw [spawn_loop]
  simp only [builtin_cmd_not_builtin fuel j _ p.argv s hn, ha, if_true, hp, e1, hj, hi, e2,
    hne1, hne0, if_false, Bool.not_true, Bool.false_eq_true, e4]
  by_cases hlt : jc.pgid < 0 <;> simp [set_child_pgid, sys_pipe, hlt]

/-- The spawn loop over the stages `ps` of a piped job, none a built-in, every fork
succeeding: one fork per stage in order, no wait, every stage put in the group of the
first. -/
theorem spawn_loop_piped (os : OS) (fuel : Nat) (j : Ptr) (fg : Bool)
    (hpos : ∀ k, 0 < os.fork k) (ps : List process_t) :
    ∀ (pre : List process_t) (piping : Bool) (prev : Nat × Nat) (s : State) (jc : job_t),
      s.heap j = some jc → jc.first_process = pre ++ ps → s.jobs_added = true →
      (∀ p ∈ ps, not_builtin p.argv = true) → (piping = true ∨ 2 ≤ ps.length) →
      ∃ s1 jf evs cs,
        spawn_loop os fuel j fg ps pre.length piping prev s =
          Outcome.ok (LoopExit.finished (piping || !ps.isEmpty)) s1 ∧
        s1.heap j = some jf ∧ jf.first_process = pre ++ with_pids os ps s.nfork ∧
        jf.pgid = (if ps = [] then jc.pgid
                   else if jc.pgid < 0 then os.fork s.nfork else jc.pgid) ∧
        s1.nwait = s.nwait ∧ s1.out = s.out ++ evs ∧ s1.children = s.children ++ cs ∧
        forked_pids evs = (with_pids os ps s.nfork).map (fun q => q.pid) ∧
        waited evs = [] ∧
        setpgid_calls evs = (with_pids os ps s.nfork).map
          (fun q => (q.pid, if jc.pgid < 0 then os.fork s.nfork else jc.pgid)) ∧
        cs.map (fun c => (c.pid, setpgid_calls c.calls)) = (with_pids os ps s.nfork).map
          (fun q => (q.pid, [(q.pid, if jc.pgid < 0 then os.fork s.nfork else jc.pgid)])) := by
  induction ps with
  | nil =>
    intro pre piping prev s jc hj hl _ _ _
    refine ⟨s, jc, [], [], ?_, hj, by simpa [with_pids] using hl, by simp, rfl, by simp,
      by simp, rfl, rfl, rfl, rfl⟩
    simp [spawn_loop]
  | cons p rest ih =>
    intro pre piping prev s jc hj hl ha hnb hpipe
    have hp : (piping || !rest.isEmpty) = true := by
      rcases hpipe with h | h
      · simp [h]
      · cases rest with
        | nil => simp at h
        | cons a as => simp
    have hi : jc.first_process[pre.length]? = some p := by
      rw [hl]
      exact getElem?_append_length pre p rest
    have hG : ¬ (if jc.pgid < 0 then os.fork s.nfork else jc.pgid) < 0 := by
      have := hpos s.nfork
      split <;> omega
    rw [spawn_loop_piped_step os fuel j fg p rest pre.length piping prev s jc p
      (hnb p (List.mem_cons_self _ _)) ha hp hj hi (hpos s.nfork)]
    obtain ⟨e1, e2, e3, e4, e5, e6, e7⟩ := sys_pipe_fields s
    obtain ⟨s1, jf, evs, cs, hrun, hjf, hfp, hpg, hnw, hout, hch, hf1, hf2, hf3, hf4⟩ :=
      ih (pre ++ [{ p with pid := os.fork s.nfork }]) true (sys_pipe s).1
        { (sys_pipe s).2 with
          heap := heap_write s.heap j
            { jc with first_process :=
                        jc.first_process.set pre.length { p with pid := os.fork s.nfork },
                      pgid := if jc.pgid < 0 then os.fork s.nfork else jc.pgid },
          nfork := s.nfork + 1,
          out := (sys_pipe s).2.out ++ [Event.fork (os.fork s.nfork),
            Event.setpgid (os.fork s.nfork) (if jc.pgid < 0 then os.fork s.nfork else jc.pgid)],
          children := s.children ++ [child_branch os (os.fork s.nfork) jc pre.length p
            rest.isEmpty fg true (sys_pipe s).1 prev (sys_pipe s).2.fds] }
        { jc with first_process :=
                    jc.first_process.set pre.length { p with pid := os.fork s.nfork },
                  pgid := if jc.pgid < 0 then os.fork s.nfork else jc.pgid }
        (by simp [heap_write]) (by simp [hl, set_append_length]) ha
        (fun q hq => hnb q (List.mem_cons_of_mem _ hq)) (Or.inl rfl)
    simp only [List.length_append, List.length_singleton] at hrun
    simp only [hG, if_false] at hpg hf3 hf4
    refine ⟨s1, jf, [Event.pipe (sys_pipe s).1.1 (sys_pipe s).1.2, Event.fork (os.fork s.nfork),
        Event.setpgid (os.fork s.nfork) (if jc.pgid < 0 then os.fork s.nfork else jc.pgid)]
        ++ evs,
      child_branch os (os.fork s.nfork) jc pre.length p rest.isEmpty fg true (sys_pipe s).1
        prev (sys_pipe s).2.fds :: cs, ?_, hjf, ?_, ?_, ?_, ?_, ?_, ?_, ?_, ?_, ?_⟩
    · rw [hrun]
      simp
    · simpa [with_pids] using hfp
    · rw [hpg]
      simp
    · rw [hnw, e3]
    · rw [hout, e7]
      simp
    · rw [hch]
      simp
    · rw [forked_pids_append, hf1]
      simp [forked_pids, with_pids]
    · rw [waited_append, hf2]
      simp [waited]
    · rw [setpgid_calls_append, hf3]
      simp [setpgid_calls, with_pids]
    · simp only [List.map_cons, hf4, child_branch_pid, child_branch_setpgid, with_pids]

/-- On a well-formed registry `append_active_job` returns, whatever it is given, and it
rewrites nothing but one `next` link. -/
theorem append_total (fuel : Nat) (s : State) (r : List Ptr) (j : Ptr)
    (hr : IsChain s.heap s.active_jobs r) (hf : r.length ≤ fuel) :
    ∃ h1 p1, append_active_job fuel (some j) s = some { s with heap := h1, active_jobs := p1 } ∧
      (∀ a jb, s.heap a = some jb → ∃ jb1, h1 a = some jb1 ∧ same_job jb jb1) := by
  rcases List.eq_nil_or_concat r with rfl | ⟨pre, l, hrl⟩
  · simp only [IsChain] at hr
    refine ⟨s.heap, some j, by simp [append_active_job, hr], ?_⟩
    intro a jb ha
    exact ⟨jb, ha, same_job_refl jb⟩
  · rw [List.concat_eq_append] at hrl
    subst hrl
    rw [isChain_iff_isSeg] at hr
    have hr1 := hr
    rw [isSeg_append] at hr1
    obtain ⟨m, hpre, hl⟩ := hr1
    obtain ⟨hm, cj, hcj, hnx⟩ := hl
    have hhd : ∃ hd, s.active_jobs = some hd := by
      cases pre with
      | nil => exact ⟨l, hr.1⟩
      | cons b bs => exact ⟨b, hr.1⟩
    obtain ⟨hd0, hhd0⟩ := hhd
    have hlast : last_job s.heap fuel hd0 = some l := by
      rw [hhd0] at hr
      exact last_job_of_isSeg _ pre l hd0 fuel hr (by simpa using hf)
    refine ⟨heap_write s.heap l { cj with next := some j }, s.active_jobs,
      by simp [append_active_job, hhd0, hlast, hcj], ?_⟩
    intro a jb ha
    by_cases hal : a = l
    · subst hal
      rw [hcj] at ha
      simp only [Option.some.injEq] at ha
      subst ha
      exact ⟨{ cj with next := some j }, by simp [heap_write], rfl, rfl, rfl, rfl⟩
    · exact ⟨jb, by simp [heap_write, hal, ha], same_job_refl jb⟩

/-- The registration made by the spawn loop at the first stage that is no built-in. -/
theorem spawn_loop_register (os : OS) (fuel : Nat) (j : Ptr) (fg : Bool) (p : process_t)
    (rest : List process_t) (i : Nat) (piping : Bool) (prev : Nat × Nat) (s s2 : State)
    (hn : not_builtin p.argv = true) (ha : s.jobs_added = false)
    (happ : append_active_job fuel (some j) s = some s2) :
    spawn_loop os fuel j fg (p :: rest) i piping prev s =
      spawn_loop os fuel j fg (p :: rest) i piping prev { s2 with jobs_added := true } := by
  rw [spawn_loop, spawn_loop]
  simp only [builtin_cmd_not_builtin fuel j _ p.argv _ hn, ha, happ, Bool.false_eq_true,
    if_false, if_true, Option.map_some']

theorem heap_write_overwrite (h : Ptr → Option job_t) (a : Ptr) (x y : job_t) :
    heap_write (heap_write h a x) a y = heap_write h a y := by
  funext b
  by_cases e : b = a <;> simp [heap_write, e]

/-- The spawn loop on a registered job of one stage that is no built-in, the fork
succeeding: the child is forked, put in its group and waited on at once. -/
theorem spawn_loop_single (os : OS) (fuel : Nat) (j : Ptr) (fg : Bool) (p : process_t)
    (prev : Nat × Nat) (s : State) (jc : job_t)
    (hn : not_builtin p.argv = true) (ha : s.jobs_added = true)
    (hj : s.heap j = some jc) (hl : jc.first_process = [p]) (hpos : 0 < os.fork s.nfork) :
    spawn_loop os fuel j fg [p] 0 false prev s = Outcome.ok (LoopExit.finished false)
      { s with
        heap := heap_write s.heap j
          { jc with first_process :=
                      [(mark_status (os.waitpid s.nwait) { p with pid := os.fork s.nfork }).1],
                    pgid := if jc.pgid < 0 then os.fork s.nfork else jc.pgid },
        nfork := s.nfork + 1,
        nwait := s.nwait + 1,
        out := s.out ++ [Event.fork (os.fork s.nfork),
            Event.setpgid (os.fork s.nfork) (if jc.pgid < 0 then os.fork s.nfork else jc.pgid),
            Event.waitpid (os.fork s.nfork) (os.waitpid s.nwait)] ++
          (mark_status (os.waitpid s.nwait) { p with pid := os.fork s.nfork }).2,
        children := s.children ++
          [child_branch os (os.fork s.nfork) jc 0 p true fg false (0, 0) prev s.fds] } := by
  have hne1 : os.fork s.nfork ≠ -1 := by omega
  have hne0 : os.fork s.nfork ≠ 0 := by omega
  rw [spawn_loop]
  simp only [builtin_cmd_not_builtin fuel j _ p.argv s hn, ha, if_true, hj, hl,
    hne1, hne0, if_false]
  by_cases hlt : jc.pgid < 0 <;>
    simp [set_child_pgid, hlt, wait_process, heap_write_overwrite, spawn_loop, hj, hl, hne1,
      hne0, ha, heap_write]

theorem with_pids_length (os : OS) (ps : List process_t) (k : Nat) :
    (with_pids os ps k).length = ps.length := by
  induction ps generalizing k with
  | nil => rfl
  | cons p rest ih => simp [with_pids, ih]

/-- Running `spawn_job` on a job whose stages are no built-ins, every fork succeeding, when the
command line is already registered. -/
theorem spawn_job_registered (os : OS) (fuel : Nat) (j : Ptr) (fg : Bool) (s : State)
    (jb : job_t) (hpos : ∀ k, 0 < os.fork k) (hj : s.heap j = some jb)
    (ha : s.jobs_added = true) (hnb : ∀ p ∈ jb.first_process, not_builtin p.argv = true) :
    ∃ s1 jf evs cs, spawn_job os fuel j fg s = Outcome.ok () s1 ∧
      s1.heap j = some jf ∧
      jf.first_process = marked os (with_pids os jb.first_process s.nfork) s.nwait ∧
      jf.pgid = (if jb.first_process = [] then jb.pgid
                 else if jb.pgid < 0 then os.fork s.nfork else jb.pgid) ∧
      s1.out = s.out ++ evs ∧ s1.children = s.children ++ cs ∧
      forked_pids evs = (with_pids os jb.first_process s.nfork).map (fun q => q.pid) ∧
      waited evs = wait_log os (with_pids os jb.first_process s.nfork) s.nwait ∧
      setpgid_calls evs = (with_pids os jb.first_process s.nfork).map
        (fun q => (q.pid, if jb.pgid < 0 then os.fork s.nfork else jb.pgid)) ∧
      cs.map (fun c => (c.pid, setpgid_calls c.calls)) =
        (with_pids os jb.first_process s.nfork).map
          (fun q => (q.pid, [(q.pid, if jb.pgid < 0 then os.fork s.nfork else jb.pgid)])) := by
  cases hps : jb.first_process with
  | nil =>
    refine ⟨seize_tty os.getpid s, jb, [Event.seize_tty os.getpid], [], ?_, hj, ?_, by simp,
      rfl, by simp [seize_tty], rfl, rfl, rfl, rfl⟩
    · simp [spawn_job, hj, hps, spawn_loop]
    · simp [hps, with_pids, marked]
  | cons p rest =>
    cases rest with
    | nil =>
      have hrun := spawn_loop_single os fuel j fg p (0, 1) s jb
        (hnb p (by simp [hps])) ha hj hps (hpos s.nfork)
      obtain ⟨hl1, hl2, hl3, hl4⟩ :=
        mark_status_log (os.waitpid s.nwait) { p with pid := os.fork s.nfork }
      refine ⟨seize_tty os.getpid
          { s with
            heap := heap_write s.heap j
              { jb with first_process :=
                  [(mark_status (os.waitpid s.nwait) { p with pid := os.fork s.nfork }).1],
                        pgid := if jb.pgid < 0 then os.fork s.nfork else jb.pgid },
            nfork := s.nfork + 1,
            nwait := s.nwait + 1,
            out := s.out ++ [Event.fork (os.fork s.nfork),
                Event.setpgid (os.fork s.nfork)
                  (if jb.pgid < 0 then os.fork s.nfork else jb.pgid),
                Event.waitpid (os.fork s.nfork) (os.waitpid s.nwait)] ++
              (mark_status (os.waitpid s.nwait) { p with pid := os.fork s.nfork }).2,
            children := s.children ++
              [child_branch os (os.fork s.nfork) jb 0 p true fg false (0, 0) (0, 1) s.fds] },
          { jb with first_process :=
                  [(mark_status (os.waitpid s.nwait) { p with pid := os.fork s.nfork }).1],
                    pgid := if jb.pgid < 0 then os.fork s.nfork else jb.pgid },
          [Event.fork (os.fork s.nfork),
            Event.setpgid (os.fork s.nfork) (if jb.pgid < 0 then os.fork s.nfork else jb.pgid),
            Event.waitpid (os.fork s.nfork) (os.waitpid s.nwait)] ++
          (mark_status (os.waitpid s.nwait) { p with pid := os.fork s.nfork }).2 ++
          [Event.seize_tty os.getpid],
          [child_branch os (os.fork s.nfork) jb 0 p true fg false (0, 0) (0, 1) s.fds],
          ?_, ?_, ?_, ?_, ?_, ?_, ?_, ?_, ?_, ?_⟩
      · simp only [spawn_job, hj, hps, hrun]
        rfl
      · simp [seize_tty, heap_write]
      · simp [with_pids, marked]
      · simp
      · simp [seize_tty]
      · simp [seize_tty]
      · rw [forked_pids_append, forked_pids_append, hl1]
        simp [forked_pids, with_pids]
      · rw [waited_append, waited_append, hl2]
        simp [waited, with_pids, wait_log]
      · rw [setpgid_calls_append, setpgid_calls_append, hl3]
        simp [setpgid_calls, with_pids]
      · simp [child_branch_pid, child_branch_setpgid, with_pids]
    | cons q rest =>
      obtain ⟨s1, jf, evs, cs, hrun, hjf, hfp, hpg, hnw, hout, hch, hf1, hf2, hf3, hf4⟩ :=
        spawn_loop_piped os fuel j fg hpos (p :: q :: rest) [] false (0, 1) s jb hj
          (by simpa using hps) ha (by simpa [hps] using hnb) (Or.inr (by simp))
      obtain ⟨s2, jf2, evs2, hrun2, hjf2, hfp2, hpg2, hout2, hch2, hg1, hg2, hg3⟩ :=
        wait_all_spec os j (p :: q :: rest) [] (with_pids os (p :: q :: rest) s.nfork) s1 jf
          hjf (by simpa using hfp) (by simp [with_pids_length])
      refine ⟨seize_tty os.getpid s2, jf2, evs ++ evs2 ++ [Event.seize_tty os.getpid], cs,
        ?_, ?_, ?_, ?_, ?_, ?_, ?_, ?_, ?_, ?_⟩
      · simp only [List.length_nil] at hrun hrun2
        simp only [spawn_job, hj, hps, hrun]
        simp [hrun2]
      · simpa [seize_tty] using hjf2
      · rw [hfp2, hnw]
        simp
      · rw [hpg2, hpg]
      · simp [seize_tty, hout2, hout]
      · simp [seize_tty, hch2, hch]
      · rw [forked_pids_append, forked_pids_append, hf1, hg1]
        simp [forked_pids]
      · rw [waited_append, waited_append, hf2, hg3, hnw]
        simp [waited]
      · rw [setpgid_calls_append, setpgid_calls_append, hf3, hg2]
        simp [setpgid_calls]
      · exact hf4

/-- Running `spawn_job` on a job whose stages are no built-ins, every fork succeeding, on a
well-formed registry: it returns; stage `k` has the pid of fork `k` and the marks of wait
`k`; the log shows one fork per stage, one wait per stage on those pids in the same order,
and every `setpgid`, in the shell and in the children, with the same group. -/
theorem spawn_job_run (os : OS) (fuel : Nat) (j : Ptr) (fg : Bool) (s : State)
    (jb : job_t) (r : List Ptr) (hpos : ∀ k, 0 < os.fork k) (hj : s.heap j = some jb)
    (hnb : ∀ p ∈ jb.first_process, not_builtin p.argv = true)
    (hr : IsChain s.heap s.active_jobs r) (hf : r.length ≤ fuel) :
    ∃ s1 jf evs cs, spawn_job os fuel j fg s = Outcome.ok () s1 ∧
      s1.heap j = some jf ∧
      jf.first_process = marked os (with_pids os jb.first_process s.nfork) s.nwait ∧
      jf.pgid = (if jb.first_process = [] then jb.pgid
                 else if jb.pgid < 0 then os.fork s.nfork else jb.pgid) ∧
      s1.out = s.out ++ evs ∧ s1.children = s.children ++ cs ∧
      forked_pids evs = (with_pids os jb.first_process s.nfork).map (fun q => q.pid) ∧
      waited evs = wait_log os (with_pids os jb.first_process s.nfork) s.nwait ∧
      setpgid_calls evs = (with_pids os jb.first_process s.nfork).map
        (fun q => (q.pid, if jb.pgid < 0 then os.fork s.nfork else jb.pgid)) ∧
      cs.map (fun c => (c.pid, setpgid_calls c.calls)) =
        (with_pids os jb.first_process s.nfork).map
          (fun q => (q.pid, [(q.pid, if jb.pgid < 0 then os.fork s.nfork else jb.pgid)])) := by
  by_cases ha : s.jobs_added = true
  · exact spawn_job_registered os fuel j fg s jb hpos hj ha hnb
  · have ha0 : s.jobs_added = false := by simpa using ha
    cases hps : jb.first_process with
    | nil =>
      refine ⟨seize_tty os.getpid s, jb, [Event.seize_tty os.getpid], [], ?_, hj, ?_, by simp,
        rfl, by simp [seize_tty], rfl, rfl, rfl, rfl⟩
      · simp [spawn_job, hj, hps, spawn_loop]
      · simp [hps, with_pids, marked]
    | cons p rest =>
      obtain ⟨h1, p1, happ, hkept⟩ := append_total fuel s r j hr hf
      obtain ⟨jb1, hjb1, hsame⟩ := hkept j jb hj
      have hfp1 : jb1.first_process = p :: rest := by rw [hsame.2.1, hps]
      have hpn : not_builtin p.argv = true := hnb p (by simp [hps])
      have heq : spawn_job os fuel j fg s =
          spawn_job os fuel j fg { s with heap := h1, active_jobs := p1, jobs_added := true } := by
        simp only [spawn_job, hj, hjb1, hps, hfp1]
        rw [spawn_loop_register os fuel j fg p rest 0 false (0, 1) s _ hpn ha0 happ]
      obtain ⟨s1, jf, evs, cs, hrun, hjf, hfp, hpg, hout, hch, hf1, hf2, hf3, hf4⟩ :=
        spawn_job_registered os fuel j fg
          { s with heap := h1, active_jobs := p1, jobs_added := true } jb1 hpos hjb1 rfl
          (by rw [hsame.2.1]; exact hnb)
      rw [hsame.2.1, hps] at hfp hpg hf1 hf2 hf3 hf4
      rw [hsame.2.2.1] at hpg hf3 hf4
      exact ⟨s1, jf, evs, cs, heq.trans hrun, hjf, hfp, hpg, hout, hch, hf1, hf2, hf3, hf4⟩

theorem marked_with_pids_get (os : OS) (ps : List process_t) :
    ∀ (kf kw k : Nat) (p : process_t), ps[k]? = some p →
      (marked os (with_pids os ps kf) kw)[k]? =
        some (mark_status (os.waitpid (kw + k)) { p with pid := os.fork (kf + k) }).1 ∧
      (wait_log os (with_pids os ps kf) kw)[k]? =
        some (os.fork (kf + k), os.waitpid (kw + k)) := by
  induction ps with
  | nil => intro kf kw k p h; simp at h
  | cons a as ih =>
    intro kf kw k p h
    cases k with
    | zero =>
      simp only [List.getElem?_cons_zero, Option.some.injEq] at h
      subst h
      simp [with_pids, marked, wait_log]
    | succ n =>
      simp only [List.getElem?_cons_succ] at h
      obtain ⟨h1, h2⟩ := ih (kf + 1) (kw + 1) n p h
      simp only [with_pids, marked, wait_log, List.getElem?_cons_succ]
      rw [h1, h2]
      have e1 : kf + 1 + n = kf + (n + 1) := by omega
      have e2 : kw + 1 + n = kw + (n + 1) := by omega
      rw [e1, e2]
      exact ⟨rfl, rfl⟩

theorem marked_length (os : OS) (ps : List process_t) (k : Nat) :
    (marked os ps k).length = ps.length := by
  induction ps generalizing k with
  | nil => rfl
  | cons p rest ih => simp [marked, ih]

theorem with_pids_pid (os : OS) (ps : List process_t) (k : Nat) :
    (with_pids os ps k).map (fun q => q.pid) =
      (List.range ps.length).map (fun i => os.fork (k + i)) := by
  induction ps generalizing k with
  | nil => rfl
  | cons p rest ih =>
    rw [with_pids, List.map_cons, ih, List.length_cons, List.range_succ_eq_map, List.map_cons,
      List.map_map]
    simp only [Nat.add_zero, List.cons.injEq, true_and]
    apply List.map_congr_left
    intro i _
    simp only [Function.comp_apply]
    congr 1
    omega

theorem wait_log_pids (os : OS) (ps : List process_t) (k : Nat) :
    (wait_log os ps k).map (fun w => w.1) = ps.map (fun q => q.pid) := by
  induction ps generalizing k with
  | nil => rfl
  | cons p rest ih => simp [wait_log, ih]

/-- The status test on a process that is neither Completed nor Stopped yet. -/
theorem mark_status_flags (st : WaitStatus) (p : process_t)
    (hc : p.completed = false) (hs : p.stopped = false) :
    ((mark_status st p).1.completed = true ↔ WIFEXITED st = true) ∧
      ((mark_status st p).1.stopped = true ↔ WIFSTOPPED st = true) ∧
      ¬ ((mark_status st p).1.completed = true ∧ (mark_status st p).1.stopped = true) := by
  cases st <;> simp [mark_status, WIFEXITED, WIFSTOPPED, hc, hs]

/-! ## Claims about the spawner -/

/-- C2: for every job whose stages are no built-ins and start neither Completed nor
Stopped, every fork succeeding, `spawn_job` returns having waited once on every stage, the
single process of a non-piped job and each stage of a piped job alike: wait number `k` of
the call is on the pid of stage `k`, and after it stage `k` is marked Completed if and only
if the status that wait reported is a normal exit, Stopped if and only if it is a stop
signal, and never both. -/
theorem spawn_job_marks_status (os : OS) (fuel : Nat) (j : Ptr) (fg : Bool) (s : State)
    (jb : job_t) (r : List Ptr) (hpos : ∀ k, 0 < os.fork k) (hj : s.heap j = some jb)
    (hnb : ∀ p ∈ jb.first_process, not_builtin p.argv = true)
    (hfresh : ∀ p ∈ jb.first_process, p.completed = false ∧ p.stopped = false)
    (hr : IsChain s.heap s.active_jobs r) (hf : r.length ≤ fuel) :
    ∃ s1 jf evs, spawn_job os fuel j fg s = Outcome.ok () s1 ∧ s1.heap j = some jf ∧
      s1.out = s.out ++ evs ∧
      jf.first_process.length = jb.first_process.length ∧
      (waited evs).length = jb.first_process.length ∧
      ∀ k, k < jb.first_process.length → ∃ q,
        jf.first_process[k]? = some q ∧
        (waited evs)[k]? = some (q.pid, os.waitpid (s.nwait + k)) ∧
        (q.completed = true ↔ WIFEXITED (os.waitpid (s.nwait + k)) = true) ∧
        (q.stopped = true ↔ WIFSTOPPED (os.waitpid (s.nwait + k)) = true) ∧
        ¬ (q.completed = true ∧ q.stopped = true) := by
  obtain ⟨s1, jf, evs, cs, hrun, hjf, hfp, _, hout, _, _, hw, _, _⟩ :=
    spawn_job_run os fuel j fg s jb r hpos hj hnb hr hf
  refine ⟨s1, jf, evs, hrun, hjf, hout, ?_, ?_, ?_⟩
  · rw [hfp, marked_length, with_pids_length]
  · have := congrArg List.length (wait_log_pids os (with_pids os jb.first_process s.nfork) s.nwait)
    rw [hw]
    simpa [with_pids_length] using this
  · intro k hk
    obtain ⟨p, hp⟩ : ∃ p, jb.first_process[k]? = some p :=
      ⟨jb.first_process[k], List.getElem?_eq_getElem hk⟩
    obtain ⟨h1, h2⟩ := marked_with_pids_get os jb.first_process s.nfork s.nwait k p hp
    have hmem : p ∈ jb.first_process := List.getElem?_mem hp
    obtain ⟨hc, hs⟩ := hfresh p hmem
    obtain ⟨m1, m2, m3⟩ := mark_status_flags (os.waitpid (s.nwait + k))
      { p with pid := os.fork (s.nfork + k) } hc hs
    refine ⟨_, by rw [hfp]; exact h1, ?_, m1, m2, m3⟩
    rw [hw, h2, (mark_status_log _ _).2.2.2]

/-- C2 at the pipeline `ls | wc` of `parsed_state`, both children exiting normally. -/
theorem spawn_job_marks_status_witness :
    flags_after (spawn_job sample_os 0 8 true parsed_state) 8 = some [(true, false), (true, false)] ∧
    ∃ s1 jf evs, spawn_job sample_os 0 8 true parsed_state = Outcome.ok () s1 ∧
      s1.heap 8 = some jf ∧ s1.out = parsed_state.out ++ evs ∧
      jf.first_process.length = 2 ∧ (waited evs).length = 2 :=
  ⟨by decide,
    match spawn_job_marks_status sample_os 0 8 true parsed_state
      { commandinfo := "ls | wc", first_process := [sample_process "ls", sample_process "wc"],
        pgid := -1, bg := false, next := none } []
      (fun k => by show (0 : Int) < 100 + (k : Int); omega) rfl (by decide) (by decide)
      rfl (by decide) with
    | ⟨s1, jf, evs, h1, h2, h3, h4, h5, _⟩ => ⟨s1, jf, evs, h1, h2, h3, h4, h5⟩⟩

/-- C3, evaluated where it fails: the single child of the job `cat` is terminated by a
signal; after the wait of `spawn_job` its process is neither Completed nor Stopped, so it
is left Running. -/
theorem spawn_job_signaled_left_running :
    flags_after (spawn_job killing_os 0 7 true parsed_state) 7 = some [(false, false)] := by
  decide

/-- C4 as stated fails: job 9 of `parsed_state` has a pipeline of one process, the
built-in `cd`; `spawn_job` returns without any fork and without any wait. -/
theorem spawn_job_builtin_forks_nothing :
    (parsed_state.heap 9).map (fun jb => jb.first_process.length) = some 1 ∧
    (log_after (spawn_job sample_os 0 9 true parsed_state)).map forked_pids = some [] ∧
    (log_after (spawn_job sample_os 0 9 true parsed_state)).map waited = some [] ∧
    children_fds (spawn_job sample_os 0 9 true parsed_state) = some [] := by
  decide

/-- C4, amended: for every job whose pipeline has N processes, none of them a built-in,
every fork succeeding, `spawn_job` creates exactly N children, one fork per stage in
pipeline order (fork number `k` of the call is for stage `k`), and the shell waits on
exactly N pids, the pids of those children, in the order in which they were spawned; the
pids are distinct when the OS returns a fresh pid per fork. -/
theorem spawn_job_forks_and_waits (os : OS) (fuel : Nat) (j : Ptr) (fg : Bool) (s : State)
    (jb : job_t) (r : List Ptr) (hpos : ∀ k, 0 < os.fork k) (hj : s.heap j = some jb)
    (hnb : ∀ p ∈ jb.first_process, not_builtin p.argv = true)
    (hr : IsChain s.heap s.active_jobs r) (hf : r.length ≤ fuel) :
    ∃ s1 evs cs, spawn_job os fuel j fg s = Outcome.ok () s1 ∧
      s1.out = s.out ++ evs ∧ s1.children = s.children ++ cs ∧
      cs.length = jb.first_process.length ∧
      forked_pids evs =
        (List.range jb.first_process.length).map (fun k => os.fork (s.nfork + k)) ∧
      cs.map (fun c => c.pid) = forked_pids evs ∧
      (waited evs).map (fun w => w.1) = forked_pids evs ∧
      (Function.Injective os.fork → (forked_pids evs).Nodup) := by
  obtain ⟨s1, jf, evs, cs, hrun, _, _, _, hout, hch, hfk, hw, _, hcs⟩ :=
    spawn_job_run os fuel j fg s jb r hpos hj hnb hr hf
  have hpids := with_pids_pid os jb.first_process s.nfork
  have hcp : cs.map (fun c => c.pid) = forked_pids evs := by
    have := congrArg (List.map (fun x : Int × List (Int × Int) => x.1)) hcs
    simp only [List.map_map] at this
    rw [hfk]
    exact this
  refine ⟨s1, evs, cs, hrun, hout, hch, ?_, ?_, hcp, ?_, ?_⟩
  · have := congrArg List.length hcp
    rw [hfk, hpids] at this
    simpa using this
  · rw [hfk, hpids]
  · rw [hw, wait_log_pids, hfk]
  · intro hinj
    rw [hfk, hpids]
    apply List.Nodup.map _ (List.nodup_range _)
    intro a b hab
    have := hinj hab
    omega

/-- C4, amended, at the pipeline `ls | wc` of `parsed_state`. -/
theorem spawn_job_forks_and_waits_witness :
    (log_after (spawn_job sample_os 0 8 true parsed_state)).map forked_pids = some [100, 101] ∧
    ∃ s1 evs cs, spawn_job sample_os 0 8 true parsed_state = Outcome.ok () s1 ∧
      s1.out = parsed_state.out ++ evs ∧ s1.children = parsed_state.children ++ cs ∧
      cs.length = 2 ∧ (waited evs).map (fun w => w.1) = forked_pids evs :=
  ⟨by decide,
    match spawn_job_forks_and_waits sample_os 0 8 true parsed_state
      { commandinfo := "ls | wc", first_process := [sample_process "ls", sample_process "wc"],
        pgid := -1, bg := false, next := none } []
      (fun k => by show (0 : Int) < 100 + (k : Int); omega) rfl (by decide) rfl (by decide) with
    | ⟨s1, evs, cs, h1, h2, h3, h4, _, _, h7, _⟩ => ⟨s1, evs, cs, h1, h2, h3, h4, h7⟩⟩

/-- C7: for every job whose `pgid` is initially -1 and whose stages (at least one) are no
built-ins, every pid returned by fork positive: after `spawn_job` the `pgid` of the job is
the pid of the first child; for every stage the `setpgid` call of the shell and the one
the child makes on its fork-time copy of the job pass that same group, so no later stage
changes it.  `set_child_pgid` changes `pgid` only when it is negative, and then to the pid
of the process. -/
theorem spawn_job_group_leader (os : OS) (fuel : Nat) (j : Ptr) (fg : Bool) (s : State)
    (jb : job_t) (r : List Ptr) (hpos : ∀ k, 0 < os.fork k) (hj : s.heap j = some jb)
    (hpg : jb.pgid = -1) (hne : jb.first_process ≠ [])
    (hnb : ∀ p ∈ jb.first_process, not_builtin p.argv = true)
    (hr : IsChain s.heap s.active_jobs r) (hf : r.length ≤ fuel) :
    (∃ s1 jf evs cs, spawn_job os fuel j fg s = Outcome.ok () s1 ∧ s1.heap j = some jf ∧
      s1.out = s.out ++ evs ∧ s1.children = s.children ++ cs ∧
      jf.pgid = os.fork s.nfork ∧
      (forked_pids evs).head? = some (os.fork s.nfork) ∧
      setpgid_calls evs = (forked_pids evs).map (fun pid => (pid, os.fork s.nfork)) ∧
      cs.map (fun c => (c.pid, setpgid_calls c.calls)) =
        (forked_pids evs).map (fun pid => (pid, [(pid, os.fork s.nfork)]))) ∧
    (∀ (jb0 : job_t) (p : process_t), ¬ jb0.pgid < 0 → (set_child_pgid jb0 p).1 = jb0) ∧
    (∀ (jb0 : job_t) (p : process_t), jb0.pgid < 0 → (set_child_pgid jb0 p).1.pgid = p.pid) := by
  refine ⟨?_, ?_, ?_⟩
  · obtain ⟨s1, jf, evs, cs, hrun, hjf, _, hpgid, hout, hch, hfk, _, hsp, hcs⟩ :=
      spawn_job_run os fuel j fg s jb r hpos hj hnb hr hf
    have hlt : jb.pgid < 0 := by rw [hpg]; decide
    simp only [hlt, if_true, hne, if_false] at hpgid hsp hcs
    refine ⟨s1, jf, evs, cs, hrun, hjf, hout, hch, hpgid, ?_, ?_, ?_⟩
    · rw [hfk]
      cases hps : jb.first_process with
      | nil => exact absurd hps hne
      | cons p rest => simp [with_pids]
    · rw [hsp, hfk, List.map_map]
      rfl
    · rw [hcs, hfk, List.map_map]
      rfl
  · intro jb0 p h
    simp [set_child_pgid, h]
  · intro jb0 p h
    simp [set_child_pgid, h]

/-- C7 at the pipeline `ls | wc` of `parsed_state`: both stages join group 100. -/
theorem spawn_job_group_leader_witness :
    (log_after (spawn_job sample_os 0 8 true parsed_state)).map setpgid_calls =
      some [(100, 100), (101, 100)] ∧
    ∃ s1 jf, spawn_job sample_os 0 8 true parsed_state = Outcome.ok () s1 ∧
      s1.heap 8 = some jf ∧ jf.pgid = sample_os.fork parsed_state.nfork :=
  ⟨by decide,
    match (spawn_job_group_leader sample_os 0 8 true parsed_state
      { commandinfo := "ls | wc", first_process := [sample_process "ls", sample_process "wc"],
        pgid := -1, bg := false, next := none } []
      (fun k => by show (0 : Int) < 100 + (k : Int); omega) rfl rfl (by decide) (by decide)
      rfl (by decide)).1 with
    | ⟨s1, jf, _, _, h1, h2, _, _, h5, _⟩ => ⟨s1, jf, h1, h2, h5⟩⟩

/-- C10, evaluated where it fails: in the pipeline `ls | wc` the shell creates pipe 0 on
descriptors 3 and 4 and a second, unused pipe on 5 and 6.  The first child calls `execvp`
with its standard output on the write end of pipe 0 and with descriptors 3 and 4 still
open; the last child has its standard input on the read end of pipe 0, has closed 5 and 6,
and still holds 3 and 4, the write end of the pipe it reads from among them. -/
theorem spawn_job_children_keep_pipe_ends :
    children_fds (spawn_job sample_os 0 8 true parsed_state) =
      some [[(1, FdObj.pipe_write 0), (4, FdObj.pipe_write 0), (3, FdObj.pipe_read 0),
             (0, FdObj.tty), (2, FdObj.tty)],
            [(0, FdObj.pipe_read 0), (4, FdObj.pipe_write 0), (3, FdObj.pipe_read 0),
             (1, FdObj.tty), (2, FdObj.tty)]] := by
  decide

/-- C6 at the registry 1, 2, 3 of `sample_state`: three lines, then job 2 alone is left. -/
theorem jobs_builtin_lists_then_cleans_witness :
    IsChain sample_state.heap sample_state.active_jobs [1, 2, 3] ∧ [1, 2, 3].length ≤ 3 ∧
    ∃ s1, builtin_cmd 3 0 1 ["jobs"] sample_state = Outcome.ok true s1 ∧
      s1.out = [Event.status_line "101(Completed): ls", Event.status_line "102(Running): sleep",
        Event.status_line "103(Completed): date"] ∧
      IsChain s1.heap s1.active_jobs [2] :=
  ⟨sample_state_chain, by decide,
    match jobs_builtin_lists_then_cleans 3 sample_state [1, 2, 3] 0 1 [] sample_state_chain
      (by decide) with
    | ⟨s1, jbs, h1, h2, h3, h4, _⟩ =>
      have hj : jbs = [sample_job "ls" 101 true (some 2), sample_job "sleep" 102 false (some 3),
          sample_job "date" 103 true none] := by
        have e : List.map some jbs = List.map some
            [sample_job "ls" 101 true (some 2), sample_job "sleep" 102 false (some 3),
              sample_job "date" 103 true none] := h2.symm
        exact List.map_injective_iff.mpr (Option.some_injective _) e
      ⟨s1, h1, by rw [h3, hj]; decide, h4⟩⟩

/-! ## The registry invariant through `spawn_job` -/

theorem fresh_at_same {procs : Ptr → List process_t} (h h1 : Ptr → Option job_t) (a : Ptr) (hf : fresh_at procs h a)
    (hk : ∀ jb, h a = some jb → ∃ jb1, h1 a = some jb1 ∧ same_job jb jb1) : fresh_at procs h1 a := by
  obtain ⟨jb, hjb, hpr, hc, hargv⟩ := hf
  obtain ⟨jb1, hjb1, hs⟩ := hk jb hjb
  refine ⟨jb1, hjb1, by rw [hs.2.1]; exact hpr, ?_, ?_⟩
  · rw [same_job_completed _ _ hs]
    exact hc
  · rw [hs.2.1]
    exact hargv

theorem isChain_congr (h h1 : Ptr → Option job_t) (xs : List Ptr) (p : Option Ptr)
    (hl : ∀ a ∈ xs, (h1 a).map (fun jb => jb.next) = (h a).map (fun jb => jb.next))
    (hs : IsChain h p xs) : IsChain h1 p xs :=
  (isChain_iff_isSeg _ _ _).mpr (isSeg_congr h h1 xs p none hl ((isChain_iff_isSeg _ _ _).mp hs))

/-- Writing at `j` a record with the same `next` link keeps the shape of memory. -/
theorem SpawnInv.write {procs : Ptr → List process_t} (bound : Nat) (h : Ptr → Option job_t) (aj : Option Ptr) (added : Bool)
    (j : Ptr) (rest xs : List Ptr) (jc jb1 : job_t)
    (hinv : SpawnInv procs bound h aj added j rest xs) (hj : h j = some jc)
    (hn : jb1.next = jc.next) : SpawnInv procs bound (heap_write h j jb1) aj added j rest xs := by
  have hlinks : ∀ a, ((heap_write h j jb1) a).map (fun jb => jb.next) =
      (h a).map (fun jb => jb.next) := by
    intro a
    by_cases e : a = j
    · subst e
      simp [heap_write, hj, hn]
    · simp [heap_write, e]
  have hnd := isChain_nodup _ _ _ hinv.line
  refine ⟨isChain_congr _ _ _ _ (fun a _ => hlinks a) hinv.reg,
    isChain_congr _ _ _ _ (fun a _ => hlinks a) hinv.line, ?_, hinv.link, hinv.room⟩
  intro a ha
  have e : a ≠ j := by
    intro e
    subst e
    simp [ha] at hnd
  obtain ⟨jb, hjb, hrest⟩ := hinv.fresh a ha
  exact ⟨jb, by simp [heap_write, e, hjb], hrest⟩

/-- Registration of the line at job `j`: the chain that `j` heads is appended to the
registry. -/
theorem SpawnInv.register {procs : Ptr → List process_t} (bound fuel : Nat) (s : State) (j : Ptr) (rest xs : List Ptr)
    (hb : bound ≤ fuel)
    (hinv : SpawnInv procs bound s.heap s.active_jobs false j rest xs) :
    ∃ h1 p1, append_active_job fuel (some j) s = some { s with heap := h1, active_jobs := p1 } ∧
      SpawnInv procs bound h1 p1 true j rest (xs ++ j :: rest) ∧ h1 j = s.heap j := by
  have hdis : ∀ a ∈ j :: rest, a ∉ xs := by simpa using hinv.link
  have hroom : xs.length + (rest.length + 1) ≤ bound := by simpa using hinv.room
  obtain ⟨h1, p1, hrun, hchain, hframe, _, _⟩ :=
    append_chain fuel s xs (j :: rest) j hinv.reg hinv.line hdis (by omega)
  refine ⟨h1, p1, hrun, ⟨hchain, ?_, ?_, ?_, ?_⟩, hframe j (hdis j (by simp))⟩
  · rw [isChain_iff_isSeg]
    refine isSeg_frame _ _ _ _ _ (fun a ha => hframe a (hdis a ha)) ?_
    exact (isChain_iff_isSeg _ _ _).mp hinv.line
  · intro a ha
    obtain ⟨jb, hjb, hrest⟩ := hinv.fresh a ha
    exact ⟨jb, by rw [hframe a (hdis a (List.mem_cons_of_mem _ ha))]; exact hjb, hrest⟩
  · simp
  · simp only [if_true, List.length_append, List.length_cons]
    omega

/-- The cleanup made by the `jobs` built-in while job `j`, not completed, is being
spawned. -/
theorem SpawnInv.cleanup {procs : Ptr → List process_t} (bound : Nat) (h h1 : Ptr → Option job_t) (aj p1 : Option Ptr)
    (added : Bool) (j : Ptr) (rest xs : List Ptr) (jc : job_t)
    (hinv : SpawnInv procs bound h aj added j rest xs) (hj : h j = some jc)
    (hnc : job_is_completed jc = false)
    (hchain : IsChain h1 p1 (xs.filter (fun a => !completed_at h a)))
    (hframe : ∀ a, a ∉ xs → h1 a = h a)
    (hkept : ∀ a jb, h a = some jb → (a ∈ xs ∧ completed_at h a = true) ∨
      ∃ jb1, h1 a = some jb1 ∧ same_job jb jb1) :
    SpawnInv procs bound h1 p1 added j rest (xs.filter (fun a => !completed_at h a)) ∧
      ∃ jf, h1 j = some jf ∧ same_job jc jf := by
  have hlive : ∀ a ∈ j :: rest, completed_at h a = false := by
    intro a ha
    rcases List.mem_cons.mp ha with e | hm
    · subst e
      simp [completed_at, hj, hnc]
    · obtain ⟨jb, hjb, _, hc, _⟩ := hinv.fresh a hm
      simp [completed_at, hjb, hc]
  have hkeep : ∀ a ∈ j :: rest, ∀ jb, h a = some jb → ∃ jb1, h1 a = some jb1 ∧ same_job jb jb1 := by
    intro a ha jb hjb
    rcases hkept a jb hjb with ⟨_, hc⟩ | hr
    · rw [hlive a ha] at hc
      simp at hc
    · exact hr
  have hfilt : (j :: rest).filter (fun a => !completed_at h a) = j :: rest := by
    rw [List.filter_eq_self]
    intro a ha
    simp [hlive a ha]
  refine ⟨⟨hchain, ?_, ?_, ?_, ?_⟩, hkeep j (by simp) jc hj⟩
  · by_cases hadd : added = true
    · obtain ⟨pre, hpre⟩ : ∃ pre, xs = pre ++ j :: rest := by simpa [hadd] using hinv.link
      have hc := hchain
      rw [hpre, List.filter_append, hfilt, isChain_iff_isSeg, isSeg_append] at hc
      obtain ⟨m, _, hm⟩ := hc
      have hmj : m = some j := hm.1
      rw [hmj] at hm
      exact (isChain_iff_isSeg _ _ _).mpr hm
    · have hdis : ∀ a ∈ j :: rest, a ∉ xs := by simpa [hadd] using hinv.link
      rw [isChain_iff_isSeg]
      refine isSeg_frame _ _ _ _ _ (fun a ha => hframe a (hdis a ha)) ?_
      exact (isChain_iff_isSeg _ _ _).mp hinv.line
  · intro a ha
    exact fresh_at_same h h1 a (hinv.fresh a ha) (hkeep a (List.mem_cons_of_mem _ ha))
  · by_cases hadd : added = true
    · obtain ⟨pre, hpre⟩ : ∃ pre, xs = pre ++ j :: rest := by simpa [hadd] using hinv.link
      simp only [hadd, if_true]
      exact ⟨pre.filter (fun a => !completed_at h a), by rw [hpre, List.filter_append, hfilt]⟩
    · have hdis : ∀ a ∈ j :: rest, a ∉ xs := by simpa [hadd] using hinv.link
      simp only [hadd, if_false]
      intro a ha hm
      exact hdis a ha (List.mem_filter.mp hm).1
  · have := List.length_filter_le (fun a => !completed_at h a) xs
    have := hinv.room
    omega

/-- What `builtin_cmd` does on a well-formed registry: it exits (`quit`), handles the
command without touching memory (`cd`, `bg`, `fg`), lists and cleans the registry (`jobs`),
or reports that the command is no built-in. -/
theorem builtin_cmd_cases (fuel : Nat) (j : Ptr) (argc : Nat) (argv : List String) (s : State)
    (xs : List Ptr) (hargv : argv ≠ []) (hreg : IsChain s.heap s.active_jobs xs)
    (hf : xs.length ≤ fuel) :
    (is_builtin argv = true ∧ builtin_cmd fuel j argc argv s = Outcome.exit 0 s) ∨
    (is_builtin argv = true ∧ builtin_cmd fuel j argc argv s = Outcome.ok true s) ∨
    (is_builtin argv = false ∧ builtin_cmd fuel j argc argv s = Outcome.ok false s) ∨
    (is_builtin argv = true ∧ ∃ lines h1 p1,
      builtin_cmd fuel j argc argv s =
        Outcome.ok true { s with out := s.out ++ lines, heap := h1, active_jobs := p1 } ∧
      IsChain h1 p1 (xs.filter (fun a => !completed_at s.heap a)) ∧
      (∀ a, a ∉ xs → h1 a = s.heap a) ∧
      (∀ a jb, s.heap a = some jb → (a ∈ xs ∧ completed_at s.heap a = true) ∨
        ∃ jb1, h1 a = some jb1 ∧ same_job jb jb1)) := by
  cases argv with
  | nil => exact absurd rfl hargv
  | cons cmd args =>
    by_cases h1 : cmd = "quit"
    · left
      subst h1
      exact ⟨rfl, by simp [builtin_cmd]⟩
    by_cases h2 : cmd = "jobs"
    · right; right; right
      subst h2
      obtain ⟨jbs, _, hloop⟩ :=
        jobs_loop_spec s.heap xs s.active_jobs fuel [] ((isChain_iff_isSeg _ _ _).mp hreg) hf
      obtain ⟨h1, p1, hdel, hchain, hframe, _, hkept, _⟩ :=
        delete_completed_spec fuel { s with out := s.out ++ jbs.map status_message } xs hreg hf
      refine ⟨rfl, jbs.map status_message, h1, p1, ?_, hchain, hframe, hkept⟩
      simp only [builtin_cmd, List.head?_cons]
      have hq : ("jobs" : String) ≠ "quit" := by decide
      simp only [hq, if_false, if_true, hloop, List.nil_append, hdel]
    by_cases h3 : cmd = "cd"
    · right; left
      subst h3
      exact ⟨rfl, by simp [builtin_cmd]⟩
    by_cases h4 : cmd = "bg"
    · right; left
      subst h4
      exact ⟨rfl, by simp [builtin_cmd]⟩
    by_cases h5 : cmd = "fg"
    · right; left
      subst h5
      exact ⟨rfl, by simp [builtin_cmd]⟩
    right; right; left
    have hnb : not_builtin (cmd :: args) = true := by
      simp [not_builtin, builtin_names, h1, h2, h3, h4, h5]
    refine ⟨?_, builtin_cmd_not_builtin fuel j argc _ s hnb⟩
    simp [is_builtin, builtin_names, h1, h2, h3, h4, h5]

theorem SpawnPost.weaken {procs : Ptr → List process_t} {α : Type} (bound : Nat) (j : Ptr)
    (rest xs xs2 : List Ptr) (must : Bool) (n : Nat)
    (o : Outcome α) (hsub : ∀ a ∈ xs2, a ∈ xs ∨ a ∈ j :: rest)
    (hp : SpawnPost procs bound j rest xs2 true n o) :
    SpawnPost procs bound j rest xs must n o := by
  cases o with
  | stuck => exact hp
  | exec c => trivial
  | exit code s1 =>
    obtain ⟨xs1, hc, hs⟩ := hp
    refine ⟨xs1, hc, ?_⟩
    intro a ha
    rcases hs a ha with h | h
    · exact hsub a h
    · exact Or.inr h
  | ok r s1 =>
    obtain ⟨xs1, jf, hinv, hs, hadd, hj, hn⟩ := hp
    refine ⟨xs1, jf, hinv, ?_, fun _ => hadd rfl, hj, hn⟩
    intro a ha
    rcases hs a ha with h | h
    · rcases hsub a h with h1 | h1
      · exact Or.inl h1
      · exact Or.inr ⟨hadd rfl, h1⟩
    · exact Or.inr h

theorem not_builtin_of_not_is_builtin (argv : List String) (h1 : argv ≠ [])
    (h2 : is_builtin argv = false) : not_builtin argv = true := by
  cases argv with
  | nil => exact absurd rfl h1
  | cons c cs => simpa [is_builtin, not_builtin] using h2

theorem job_is_completed_set (jc : job_t) (i : Nat) (pc q : process_t) (pgid : Int)
    (hi : jc.first_process[i]? = some pc) (hq : q.completed = pc.completed) :
    job_is_completed { jc with first_process := jc.first_process.set i q, pgid := pgid } =
      job_is_completed jc := by
  simp only [job_is_completed]
  generalize jc.first_process = l at hi
  induction l generalizing i with
  | nil => simp at hi
  | cons a as ih =>
    cases i with
    | zero =>
      simp only [List.getElem?_cons_zero, Option.some.injEq] at hi
      subst hi
      simp [hq]
    | succ n =>
      simp only [List.getElem?_cons_succ] at hi
      simp [ih n hi]

theorem SpawnPost.cast {procs : Ptr → List process_t} {α : Type} (bound : Nat) (j : Ptr)
    (rest xs : List Ptr) (added : Bool) (n1 n : Nat) (o : Outcome α) (hadd : added = true) (hn : n1 = n)
    (hp : SpawnPost procs bound j rest xs added n1 o) : SpawnPost procs bound j rest xs true n o := by
  subst hadd
  subst hn
  exact hp

theorem set_child_pgid_fst (jb : job_t) (p : process_t) :
    (set_child_pgid jb p).1 = { jb with pgid := if jb.pgid < 0 then p.pid else jb.pgid } := by
  unfold set_child_pgid
  by_cases h : jb.pgid < 0 <;> simp [h]

theorem getElem?_set_same (l : List process_t) (i : Nat) (pc q : process_t)
    (hi : l[i]? = some pc) : (l.set i q)[i]? = some q := by
  induction l generalizing i with
  | nil => simp at hi
  | cons a as ih =>
    cases i with
    | zero => simp
    | succ n =>
      simp only [List.getElem?_cons_succ] at hi
      simpa using ih n hi

/-- One turn of the spawn loop for a stage that is no built-in, once the line is
registered, keeps the shape of memory if the turns after it do. -/
theorem spawn_loop_step_inv {procs : Ptr → List process_t} (os : OS) (fuel bound : Nat) (j : Ptr) (fg : Bool)
    (rest : List Ptr) (p : process_t) (ps : List process_t) (i : Nat) (piping : Bool)
    (prev : Nat × Nat) (s : State) (xs : List Ptr) (jc : job_t)
    (ih : ∀ (i : Nat) (piping : Bool) (prev : Nat × Nat) (s : State) (xs : List Ptr)
      (jc : job_t), SpawnInv procs bound s.heap s.active_jobs s.jobs_added j rest xs →
      s.heap j = some jc → jc.first_process.length = i + ps.length →
      (∀ q ∈ ps, q.argv ≠ []) → (ps ≠ [] → job_is_completed jc = false) →
      SpawnPost procs bound j rest xs (s.jobs_added || registers ps) (i + ps.length)
        (spawn_loop os fuel j fg ps i piping prev s))
    (hnb : not_builtin p.argv = true) (hadd : s.jobs_added = true)
    (hinv : SpawnInv procs bound s.heap s.active_jobs s.jobs_added j rest xs)
    (hj : s.heap j = some jc) (hlen : jc.first_process.length = i + (ps.length + 1))
    (hargv : ∀ q ∈ ps, q.argv ≠ []) (hnc : job_is_completed jc = false) :
    SpawnPost procs bound j rest xs true (i + (ps.length + 1))
      (spawn_loop os fuel j fg (p :: ps) i piping prev s) := by
  obtain ⟨pc, hi⟩ : ∃ pc, jc.first_process[i]? = some pc :=
    ⟨jc.first_process[i], List.getElem?_eq_getElem (by omega)⟩
  rw [spawn_loop]
  simp only [builtin_cmd_not_builtin fuel j _ p.argv s hnb, hadd, if_true]
  by_cases hp1 : (piping || !ps.isEmpty) = true
  · -- a piped stage: no wait in the loop
    obtain ⟨e1, e2, e3, e4, e5, e6, e7⟩ := sys_pipe_fields s
    simp only [hp1, if_true, e1, hj, hi, Bool.not_true, Bool.false_eq_true, if_false,
      set_child_pgid_fst]
    generalize os.fork (sys_pipe s).2.nfork = pid
    by_cases h1 : pid = -1
    · simp only [h1, if_true]
      refine ⟨xs, ?_, fun a ha => Or.inl ha⟩
      simp only [e1, e5]
      exact hinv.reg
    by_cases h0 : pid = 0
    · simp only [h0]
      trivial
    simp only [h1, h0, if_false]
    have hw := SpawnInv.write bound s.heap s.active_jobs s.jobs_added j rest xs jc
      { jc with first_process := jc.first_process.set i { pc with pid := pid },
                pgid := if jc.pgid < 0 then pid else jc.pgid } hinv hj rfl
    refine SpawnPost.cast bound j rest xs _ _ _ _ ?_ ?_
      (ih (i + 1) true _ _ xs
        { jc with first_process := jc.first_process.set i { pc with pid := pid },
                  pgid := if jc.pgid < 0 then pid else jc.pgid } ?_ ?_ ?_ hargv ?_)
    · simp [e6, hadd]
    · omega
    · simp only [e5, e6]
      exact hw
    · simp [heap_write]
    · simp only [List.length_set]
      omega
    · intro _
      exact (job_is_completed_set jc i pc { pc with pid := pid } _ hi rfl).trans hnc
  · -- the single stage of a job without pipe: it is waited on at once
    have hps : ps = [] := by
      cases ps with
      | nil => rfl
      | cons a as => simp at hp1
    subst hps
    simp only [hp1, if_false, hj, hi, Bool.not_false, if_true, set_child_pgid_fst,
      Bool.false_eq_true]
    generalize os.fork s.nfork = pid
    by_cases h1 : pid = -1
    · simp only [h1, if_true]
      exact ⟨xs, hinv.reg, fun a ha => Or.inl ha⟩
    by_cases h0 : pid = 0
    · simp only [h0]
      trivial
    simp only [h1, h0, if_false]
    have hw := SpawnInv.write bound s.heap s.active_jobs s.jobs_added j rest xs jc
      { jc with first_process := jc.first_process.set i { pc with pid := pid },
                pgid := if jc.pgid < 0 then pid else jc.pgid } hinv hj rfl
    have hget : (jc.first_process.set i { pc with pid := pid })[i]? =
        some { pc with pid := pid } := getElem?_set_same _ i pc _ hi
    have hw2 := SpawnInv.write bound _ s.active_jobs s.jobs_added j rest xs
      { jc with first_process := jc.first_process.set i { pc with pid := pid },
                pgid := if jc.pgid < 0 then pid else jc.pgid }
      { jc with first_process := (jc.first_process.set i { pc with pid := pid }).set i
                  (mark_status (os.waitpid s.nwait) { pc with pid := pid }).1,
                pgid := if jc.pgid < 0 then pid else jc.pgid } hw (by simp [heap_write]) rfl
    rw [heap_write_overwrite] at hw2
    simp only [wait_process, heap_write, if_true, hget, heap_write_overwrite]
    refine SpawnPost.cast bound j rest xs _ _ _ _ ?_ ?_
      (ih (i + 1) false _ _ xs
        { jc with first_process := (jc.first_process.set i { pc with pid := pid }).set i
                    (mark_status (os.waitpid s.nwait) { pc with pid := pid }).1,
                  pgid := if jc.pgid < 0 then pid else jc.pgid } ?_ ?_ ?_ hargv ?_)
    · simp [hadd]
    · simp
    · exact hw2
    · simp [heap_write]
    · simp only [List.length_set]
      simpa using hlen
    · intro h
      exact absurd rfl h

/-- The spawn loop keeps the shape of memory, whatever the stages of the job are. -/
theorem spawn_loop_inv {procs : Ptr → List process_t} (os : OS) (fuel bound : Nat) (j : Ptr) (fg : Bool) (rest : List Ptr)
    (hb : bound ≤ fuel) (ps : List process_t) :
    ∀ (i : Nat) (piping : Bool) (prev : Nat × Nat) (s : State) (xs : List Ptr) (jc : job_t),
      SpawnInv procs bound s.heap s.active_jobs s.jobs_added j rest xs →
      s.heap j = some jc → jc.first_process.length = i + ps.length →
      (∀ q ∈ ps, q.argv ≠ []) → (ps ≠ [] → job_is_completed jc = false) →
      SpawnPost procs bound j rest xs (s.jobs_added || registers ps) (i + ps.length)
        (spawn_loop os fuel j fg ps i piping prev s) := by
  induction ps with
  | nil =>
    intro i piping prev s xs jc hinv hj hlen _ _
    rw [spawn_loop]
    exact ⟨xs, jc, hinv, fun a ha => Or.inl ha, fun h => by simpa [registers] using h, hj,
      hlen⟩
  | cons p ps ih =>
    intro i piping prev s xs jc hinv hj hlen hargv hnc
    have hnc1 : job_is_completed jc = false := hnc (by simp)
    have hpargv : p.argv ≠ [] := hargv p (List.mem_cons_self _ _)
    have hargv1 : ∀ q ∈ ps, q.argv ≠ [] := fun q hq => hargv q (List.mem_cons_of_mem _ hq)
    have hfuel : xs.length ≤ fuel := by
      have := hinv.room
      omega
    rcases builtin_cmd_cases fuel j p.argv.length p.argv s xs hpargv hinv.reg hfuel with
      ⟨_, hb1⟩ | ⟨hbi, hb1⟩ | ⟨hnot, hb1⟩ | ⟨hbi, lines, h1, p1, hb1, hchain, hframe, hkept⟩
    · rw [spawn_loop]
      simp only [hb1]
      exact ⟨xs, hinv.reg, fun a ha => Or.inl ha⟩
    · rw [spawn_loop]
      simp only [hb1]
      exact ⟨xs, jc, hinv, fun a ha => Or.inl ha,
        fun h => by simpa [registers, hbi] using h, hj, hlen⟩
    · have hnb := not_builtin_of_not_is_builtin p.argv hpargv hnot
      by_cases hadd : s.jobs_added = true
      · apply SpawnPost.weaken bound j rest xs xs _ _ _ (fun a ha => Or.inl ha)
        exact spawn_loop_step_inv os fuel bound j fg rest p ps i piping prev s xs jc ih hnb
          hadd hinv hj hlen hargv1 hnc1
      · have ha0 : s.jobs_added = false := by simpa using hadd
        have hinv0 : SpawnInv procs bound s.heap s.active_jobs false j rest xs := by
          rw [← ha0]
          exact hinv
        obtain ⟨h1, p1, happ, hinv2, hj2⟩ := SpawnInv.register bound fuel s j rest xs hb hinv0
        rw [spawn_loop_register os fuel j fg p ps i piping prev s _ hnb ha0 happ]
        apply SpawnPost.weaken bound j rest xs (xs ++ j :: rest)
        · intro a ha
          rcases List.mem_append.mp ha with h | h
          · exact Or.inl h
          · exact Or.inr h
        · exact spawn_loop_step_inv os fuel bound j fg rest p ps i piping prev
            { s with heap := h1, active_jobs := p1, jobs_added := true } (xs ++ j :: rest) jc
            ih hnb rfl hinv2 (by rw [← hj]; exact hj2) hlen hargv1 hnc1
    · rw [spawn_loop]
      simp only [hb1]
      obtain ⟨hinv1, jf, hjf, hsame⟩ := SpawnInv.cleanup bound s.heap h1 s.active_jobs p1
        s.jobs_added j rest xs jc hinv hj hnc1 hchain hframe hkept
      refine ⟨xs.filter (fun a => !completed_at s.heap a), jf, hinv1, ?_,
        fun h => by simpa [registers, hbi] using h, hjf, ?_⟩
      · intro a ha
        exact Or.inl (List.mem_filter.mp ha).1
      · rw [hsame.2.1]
        exact hlen

/-- The wait loop of a piped job returns and keeps the shape of memory. -/
theorem wait_all_inv {procs : Ptr → List process_t} (os : OS) (bound : Nat) (j : Ptr) (rest xs : List Ptr)
    (sn : List process_t) :
    ∀ (i : Nat) (s : State) (jc : job_t),
      SpawnInv procs bound s.heap s.active_jobs s.jobs_added j rest xs → s.heap j = some jc →
      jc.first_process.length = i + sn.length →
      ∃ s1 jf, wait_all os j sn i s = some s1 ∧
        SpawnInv procs bound s1.heap s1.active_jobs s1.jobs_added j rest xs ∧
        s1.jobs_added = s.jobs_added ∧ s1.heap j = some jf ∧
        jf.first_process.length = i + sn.length := by
  induction sn with
  | nil =>
    intro i s jc hinv hj hlen
    exact ⟨s, jc, rfl, hinv, rfl, hj, hlen⟩
  | cons x sn ih =>
    intro i s jc hinv hj hlen
    simp only [List.length_cons] at hlen
    have hlt : i < jc.first_process.length := by omega
    obtain ⟨pc, hi⟩ : ∃ pc, jc.first_process[i]? = some pc :=
      ⟨jc.first_process[i], List.getElem?_eq_getElem hlt⟩
    have hw := SpawnInv.write bound s.heap s.active_jobs s.jobs_added j rest xs jc
      { jc with first_process := jc.first_process.set i
                  (mark_status (os.waitpid s.nwait) pc).1 } hinv hj rfl
    obtain ⟨s1, jf, hrun, hinv1, hadd1, hjf, hlen1⟩ := ih (i + 1)
      { s with heap := heap_write s.heap j
                 { jc with first_process := jc.first_process.set i
                             (mark_status (os.waitpid s.nwait) pc).1 },
               nwait := s.nwait + 1,
               out := s.out ++ Event.waitpid pc.pid (os.waitpid s.nwait) ::
                 (mark_status (os.waitpid s.nwait) pc).2 }
      { jc with first_process := jc.first_process.set i (mark_status (os.waitpid s.nwait) pc).1 }
      hw (by simp [heap_write]) (by simp only [List.length_set]; omega)
    refine ⟨s1, jf, ?_, hinv1, hadd1, hjf, by simp only [List.length_cons]; omega⟩
    simp only [wait_all, hj, hi, wait_process]
    exact hrun

/-- Running `spawn_job` keeps the shape of memory: called at job `j` of a line, not completed and
with an `argv[0]` in each process, it is never stuck, and when it returns or exits the
registry is a chain again. -/
theorem spawn_job_inv {procs : Ptr → List process_t} (os : OS) (fuel bound : Nat) (j : Ptr) (fg : Bool) (s : State)
    (rest xs : List Ptr) (jb : job_t) (hb : bound ≤ fuel)
    (hinv : SpawnInv procs bound s.heap s.active_jobs s.jobs_added j rest xs)
    (hj : s.heap j = some jb) (hnc : job_is_completed jb = false)
    (hargv : ∀ p ∈ jb.first_process, p.argv ≠ []) :
    SpawnPost procs bound j rest xs (s.jobs_added || registers jb.first_process)
      jb.first_process.length (spawn_job os fuel j fg s) := by
  have hpost := spawn_loop_inv os fuel bound j fg rest hb jb.first_process 0 false (0, 1) s xs
    jb hinv hj (by simp) hargv (fun _ => hnc)
  simp only [Nat.zero_add] at hpost
  unfold spawn_job
  simp only [hj]
  generalize spawn_loop os fuel j fg jb.first_process 0 false (0, 1) s = o at hpost
  cases o with
  | stuck => exact hpost
  | exec c => trivial
  | exit code s1 => exact hpost
  | ok e s1 =>
    cases e with
    | returned => exact hpost
    | finished piping =>
      obtain ⟨xs1, jf, hinv1, hsub, hadd, hjf, hlen⟩ := hpost
      cases piping with
      | false =>
        exact ⟨xs1, jf, hinv1, hsub, hadd, hjf, hlen⟩
      | true =>
        obtain ⟨s2, jf2, hrun, hinv2, hadd2, hjf2, hlen2⟩ :=
          wait_all_inv os bound j rest xs1 jb.first_process 0 s1 jf hinv1 hjf
            (by simpa using hlen)
        simp only [if_true, hrun]
        refine ⟨xs1, jf2, hinv2, ?_, ?_, hjf2, by simpa using hlen2⟩
        · intro a ha
          rcases hsub a ha with h | h
          · exact Or.inl h
          · exact Or.inr ⟨by show s2.jobs_added = true; rw [hadd2]; exact h.1, h.2⟩
        · intro h
          show s2.jobs_added = true
          rw [hadd2]
          exact hadd h

/-! ## The registry invariant through the driver loop -/

/-- After `spawn_job` on job `j`, `current_job = current_job->next` moves to the next job
of the line. -/
theorem SpawnInv.advance {procs : Ptr → List process_t} (bound : Nat)
    (h : Ptr → Option job_t) (aj : Option Ptr) (added : Bool) (j : Ptr) (rest xs : List Ptr)
    (jf : job_t) (hinv : SpawnInv procs bound h aj added j rest xs) (hj : h j = some jf) :
    LineInv procs bound h aj added jf.next rest xs := by
  obtain ⟨_, jb, hjb, hnext⟩ := hinv.line
  rw [hj] at hjb
  simp only [Option.some.injEq] at hjb
  subst hjb
  cases rest with
  | nil =>
    refine ⟨hnext, hinv.reg, ?_⟩
    have := hinv.room
    omega
  | cons k rest1 =>
    have hk : jf.next = some k := hnext.1
    refine ⟨hk, ⟨hinv.reg, hk ▸ hnext, ?_, ?_, ?_⟩, hinv.fresh k (List.mem_cons_self _ _)⟩
    · intro a ha
      exact hinv.fresh a (List.mem_cons_of_mem _ ha)
    · by_cases hadd : added = true
      · obtain ⟨pre, hpre⟩ : ∃ pre, xs = pre ++ j :: k :: rest1 := by
          simpa [hadd] using hinv.link
        simp only [hadd, if_true]
        exact ⟨pre ++ [j], by simp [hpre]⟩
      · have hdis : ∀ a ∈ j :: k :: rest1, a ∉ xs := by simpa [hadd] using hinv.link
        simp only [hadd, if_false]
        intro a ha
        exact hdis a (List.mem_cons_of_mem _ ha)
    · have := hinv.room
      cases added with
      | true => simpa using this
      | false =>
        simp only [Bool.false_eq_true, if_false, List.length_cons] at this ⊢
        omega

/-- The inner loop of `main` keeps the shape of memory: it is never stuck, and when it has
run off the end of the line, or the shell exits, the registry is a chain. -/
theorem spawn_jobs_inv {procs : Ptr → List process_t} (os : OS) (fuel bound : Nat)
    (hb : bound ≤ fuel) (rest : List Ptr) :
    ∀ (n : Nat) (cur : Option Ptr) (s : State) (xs : List Ptr),
      LineInv procs bound s.heap s.active_jobs s.jobs_added cur rest xs →
      LinePost procs bound rest xs s.jobs_added n (spawn_jobs os fuel n cur s) := by
  induction rest with
  | nil =>
    intro n cur s xs hinv
    obtain ⟨hcur, hreg, hlen⟩ := hinv
    subst hcur
    have hrun : spawn_jobs os fuel n none s = Outcome.ok none s := by
      cases n <;> rfl
    rw [hrun]
    exact ⟨xs, [], ⟨rfl, hreg, hlen⟩, fun a ha => Or.inl ha, id, fun _ => rfl⟩
  | cons j rest ih =>
    intro n cur s xs hinv
    obtain ⟨hcur, hsp, hfresh⟩ := hinv
    subst hcur
    cases n with
    | zero =>
      refine ⟨xs, j :: rest, ⟨rfl, hsp, hfresh⟩, fun a ha => Or.inl ha, id, ?_⟩
      intro h
      simp at h
    | succ m =>
      obtain ⟨jb, hjb, _, hnc, hargv⟩ := hfresh
      have hpost := spawn_job_inv os fuel bound j (!jb.bg) s rest xs jb hb hsp hjb hnc hargv
      rw [spawn_jobs]
      simp only [hjb]
      generalize spawn_job os fuel j (!jb.bg) s = o at hpost
      cases o with
      | stuck => exact hpost
      | exec c => trivial
      | exit code s1 => exact hpost
      | ok u s1 =>
        obtain ⟨xs1, jf, hinv1, hsub, hadd, hjf, _⟩ := hpost
        simp only [hjf]
        have hline := SpawnInv.advance bound s1.heap s1.active_jobs s1.jobs_added j rest xs1 jf
          hinv1 hjf
        have hrec := ih m jf.next s1 xs1 hline
        generalize spawn_jobs os fuel m jf.next s1 = o2 at hrec
        cases o2 with
        | stuck => exact hrec
        | exec c => trivial
        | exit code s2 =>
          obtain ⟨xs2, hc2, hs2⟩ := hrec
          refine ⟨xs2, hc2, ?_⟩
          intro a ha
          rcases hs2 a ha with h | h
          · rcases hsub a h with h1 | h1
            · exact Or.inl h1
            · exact Or.inr h1.2
          · exact Or.inr (List.mem_cons_of_mem _ h)
        | ok c s2 =>
          obtain ⟨xs2, rest2, hinv2, hs2, hadd2, hend⟩ := hrec
          refine ⟨xs2, rest2, hinv2, ?_, fun h => hadd2 (hadd (by simp [h])), ?_⟩
          · intro a ha
            rcases hs2 a ha with h | h
            · rcases hsub a h with h1 | h1
              · exact Or.inl h1
              · exact Or.inr ⟨hadd2 h1.1, h1.2⟩
            · exact Or.inr ⟨h.1, List.mem_cons_of_mem _ h.2⟩
          · intro hle
            apply hend
            simp only [List.length_cons] at hle
            omega

theorem load_jobs_frame (line : List ParsedJob) (h : Ptr → Option job_t) (a : Ptr)
    (ha : a ∉ line_addrs line) : load_jobs line h a = h a := by
  induction line with
  | nil => rfl
  | cons pj rest ih =>
    simp only [line_addrs, List.map_cons, List.mem_cons, not_or] at ha
    simp only [load_jobs, heap_write, ha.1, if_false]
    exact ih ha.2

theorem load_jobs_at (line : List ParsedJob) (h : Ptr → Option job_t)
    (hnd : (line_addrs line).Nodup) (pj : ParsedJob) (hp : pj ∈ line) :
    ∃ nx, load_jobs line h pj.addr = some (mk_job pj nx) := by
  induction line with
  | nil => simp at hp
  | cons q rest ih =>
    simp only [line_addrs, List.map_cons, List.nodup_cons] at hnd
    rcases List.mem_cons.mp hp with e | hm
    · subst e
      exact ⟨rest.head?.map (fun q => q.addr), by simp [load_jobs, heap_write]⟩
    · have hne : pj.addr ≠ q.addr := by
        intro e
        exact hnd.1 (e ▸ List.mem_map_of_mem (fun pj => pj.addr) hm)
      obtain ⟨nx, hnx⟩ := ih hnd.2 hm
      exact ⟨nx, by simp [load_jobs, heap_write, hne, hnx]⟩

theorem load_jobs_chain (line : List ParsedJob) (h : Ptr → Option job_t)
    (hnd : (line_addrs line).Nodup) :
    IsChain (load_jobs line h) (line.head?.map (fun q => q.addr)) (line_addrs line) := by
  induction line with
  | nil => rfl
  | cons pj rest ih =>
    simp only [line_addrs, List.map_cons, List.nodup_cons] at hnd
    refine ⟨rfl, mk_job pj (rest.head?.map (fun q => q.addr)), by simp [load_jobs, heap_write],
      ?_⟩
    refine isChain_congr _ _ _ _ ?_ (ih hnd.2)
    intro a ha
    have hne : a ≠ pj.addr := fun e => hnd.1 (e ▸ ha)
    simp [load_jobs, heap_write, hne]

theorem mk_job_fresh (pj : ParsedJob) (nx : Option Ptr) :
    job_is_completed (mk_job pj nx) = false ∧
      ∀ p ∈ (mk_job pj nx).first_process, p.argv ≠ [] := by
  constructor
  · simp [job_is_completed, mk_job, mk_process]
  · intro p hp
    simp only [mk_job, List.mem_cons, List.mem_map] at hp
    rcases hp with e | ⟨q, _, e⟩
    · subst e
      simp [mk_process]
    · subst e
      simp [mk_process]

/-- The memory right after the parser has stored a command line whose jobs have fresh,
distinct addresses: the inner loop of `main` starts from a state of the invariant. -/
theorem readcmdline_inv (line : List ParsedJob) (s : State) (xs : List Ptr)
    (hreg : IsChain s.heap s.active_jobs xs) (hnd : (line_addrs line).Nodup)
    (hnew : ∀ a ∈ line_addrs line, a ∉ xs) :
    LineInv (heap_procs (readcmdline line s).2.heap) (xs.length + line.length)
      (readcmdline line s).2.heap s.active_jobs false (readcmdline line s).1
      (line_addrs line) xs := by
  have hreg1 : IsChain (load_jobs line s.heap) s.active_jobs xs := by
    refine isChain_congr _ _ _ _ ?_ hreg
    intro a ha
    rw [load_jobs_frame line s.heap a (fun hm => hnew a hm ha)]
  have hfresh : ∀ pj ∈ line,
      fresh_at (heap_procs (load_jobs line s.heap)) (load_jobs line s.heap) pj.addr := by
    intro pj hp
    obtain ⟨nx, hnx⟩ := load_jobs_at line s.heap hnd pj hp
    exact ⟨mk_job pj nx, hnx, by simp [heap_procs, hnx], (mk_job_fresh pj nx).1,
      (mk_job_fresh pj nx).2⟩
  have hchain := load_jobs_chain line s.heap hnd
  cases line with
  | nil => exact ⟨rfl, hreg1, by simp⟩
  | cons pj rest =>
    refine ⟨rfl, ⟨hreg1, hchain, ?_, ?_, ?_⟩, hfresh pj (List.mem_cons_self _ _)⟩
    · intro a ha
      obtain ⟨q, hq, e⟩ := List.mem_map.mp ha
      subst e
      exact hfresh q (List.mem_cons_of_mem _ hq)
    · simp only [Bool.false_eq_true, if_false]
      exact hnew
    · simp [line_addrs]

theorem LineInv.done {procs : Ptr → List process_t} (bound : Nat) (h : Ptr → Option job_t)
    (aj : Option Ptr) (added : Bool) (cur : Option Ptr) (xs : List Ptr)
    (hinv : LineInv procs bound h aj added cur [] xs) :
    cur = none ∧ IsChain h aj xs ∧ xs.length ≤ bound := hinv

/-- The driver loop keeps the registry a chain: fed command lines whose jobs have fresh,
distinct addresses, with fuel for all of them, it is never stuck, and whenever the shell
exits the registry is a chain without repetition. -/
theorem dsh_loop_inv (os : OS) (fuel : Nat) (lines : List (List ParsedJob)) :
    ∀ (s : State) (xs : List Ptr), IsChain s.heap s.active_jobs xs → s.jobs_added = false →
      (all_addrs lines).Nodup → (∀ a ∈ all_addrs lines, a ∉ xs) →
      xs.length + (all_addrs lines).length ≤ fuel →
      DriverPost (dsh_loop os fuel lines s) := by
  induction lines with
  | nil =>
    intro s xs hreg _ _ _ _
    exact ⟨xs, hreg, isChain_nodup _ _ _ hreg⟩
  | cons line rest ih =>
    intro s xs hreg hadd hnd hnew hf
    simp only [all_addrs, List.nodup_append, List.length_append] at hnd hf
    have hnew1 : ∀ a ∈ line_addrs line, a ∉ xs := fun a ha =>
      hnew a (by simp [all_addrs, ha])
    have hnew2 : ∀ a ∈ all_addrs rest, a ∉ xs := fun a ha =>
      hnew a (by simp [all_addrs, ha])
    have hlen : (line_addrs line).length = line.length := by simp [line_addrs]
    have hinv := readcmdline_inv line s xs hreg hnd.1 hnew1
    cases line with
    | nil =>
      have hrun : dsh_loop os fuel ([] :: rest) s =
          dsh_loop os fuel rest { s with heap := load_jobs [] s.heap } := by
        simp [dsh_loop, readcmdline]
      rw [hrun]
      exact ih _ xs hreg hadd hnd.2.1 hnew2 (by omega)
    | cons pj l =>
      have hpost := spawn_jobs_inv os fuel (xs.length + (pj :: l).length) (by omega)
        (line_addrs (pj :: l)) fuel (readcmdline (pj :: l) s).1 (readcmdline (pj :: l) s).2 xs
        (by rw [show (readcmdline (pj :: l) s).2.jobs_added = false from hadd]; exact hinv)
      rw [dsh_loop]
      have hrc : readcmdline (pj :: l) s =
          (some pj.addr, (readcmdline (pj :: l) s).2) := rfl
      rw [hrc]
      simp only
      have hrc1 : (readcmdline (pj :: l) s).1 = some pj.addr := rfl
      rw [hrc1] at hpost
      generalize spawn_jobs os fuel fuel (some pj.addr) (readcmdline (pj :: l) s).2 = o at hpost
      cases o with
      | stuck => exact hpost
      | exec c => trivial
      | exit code s1 =>
        obtain ⟨xs1, hc, _⟩ := hpost
        exact ⟨xs1, hc, isChain_nodup _ _ _ hc⟩
      | ok c s1 =>
        obtain ⟨xs1, rest1, hinv1, hsub, _, hend⟩ := hpost
        have hr1 : rest1 = [] := hend (by rw [hlen]; omega)
        subst hr1
        obtain ⟨hc, hreg1, hlen1⟩ := LineInv.done _ _ _ _ _ _ hinv1
        subst hc
        simp only
        refine ih { s1 with jobs_added := false } xs1 hreg1 rfl hnd.2.1 ?_ (by omega)
        intro a ha hm
        rcases hsub a hm with h | h
        · exact hnew2 a ha h
        · exact hnd.2.2 h.2 ha

/-! ## When a job enters the registry -/

theorem delete_completed_flag (fuel : Nat) (s s1 : State)
    (h : delete_completed_jobs_from_active_jobs fuel s = some s1) :
    s1.jobs_added = s.jobs_added := by
  unfold delete_completed_jobs_from_active_jobs at h
  split at h
  · simp only [Option.some.injEq] at h
    rw [← h]
  · split at h
    · simp at h
    · split at h
      · simp at h
      · split at h <;> simp only [Option.some.injEq] at h <;> rw [← h]

/-- The function `builtin_cmd` never touches the flag `jobs_added`, and it reports "not handled" only
for a command that is no built-in. -/
theorem builtin_cmd_ok (fuel : Nat) (j : Ptr) (argc : Nat) (argv : List String) (s s1 : State)
    (b : Bool) (h : builtin_cmd fuel j argc argv s = Outcome.ok b s1) :
    s1.jobs_added = s.jobs_added ∧ (is_builtin argv = true → b = true) := by
  unfold builtin_cmd at h
  cases argv with
  | nil => simp at h
  | cons cmd args =>
    simp only [List.head?_cons] at h
    by_cases h1 : cmd = "quit"
    · subst h1
      simp at h
    by_cases h2 : cmd = "jobs"
    · subst h2
      simp only [h1, if_false, if_true] at h
      split at h
      · simp at h
      · split at h
        · simp at h
        · rename_i s2 hdel
          simp only [Outcome.ok.injEq] at h
          obtain ⟨hb, hs⟩ := h
          subst hs
          have hflag := delete_completed_flag fuel _ _ hdel
          exact ⟨hflag, fun _ => hb.symm⟩
    by_cases h3 : cmd = "cd"
    · subst h3
      simp only [h1, h2, if_false, if_true, Outcome.ok.injEq] at h
      exact ⟨by rw [← h.2], fun _ => h.1.symm⟩
    by_cases h4 : cmd = "bg"
    · subst h4
      simp only [h1, h2, h3, if_false, if_true, Outcome.ok.injEq] at h
      exact ⟨by rw [← h.2], fun _ => h.1.symm⟩
    by_cases h5 : cmd = "fg"
    · subst h5
      simp only [h1, h2, h3, h4, if_false, if_true, Outcome.ok.injEq] at h
      exact ⟨by rw [← h.2], fun _ => h.1.symm⟩
    simp only [h1, h2, h3, h4, h5, if_false, Outcome.ok.injEq] at h
    refine ⟨by rw [← h.2], ?_⟩
    intro hb
    simp [is_builtin, builtin_names, h1, h2, h3, h4, h5] at hb

/-- Running `spawn_job` on a job whose first process is a built-in returns without registering
anything: the flag `jobs_added` is as before. -/
theorem spawn_job_builtin_flag (os : OS) (fuel : Nat) (j : Ptr) (fg : Bool) (s s1 : State)
    (jb : job_t) (u : Unit) (hj : s.heap j = some jb)
    (hb : builtin_first jb.first_process = true)
    (hrun : spawn_job os fuel j fg s = Outcome.ok u s1) : s1.jobs_added = s.jobs_added := by
  unfold spawn_job at hrun
  simp only [hj] at hrun
  cases hps : jb.first_process with
  | nil => simp [hps, builtin_first] at hb
  | cons p ps =>
    rw [hps] at hrun hb
    simp only [builtin_first] at hb
    rw [spawn_loop] at hrun
    cases hbc : builtin_cmd fuel j p.argv.length p.argv s with
    | stuck => simp [hbc] at hrun
    | exec c => simp [hbc] at hrun
    | exit code s2 => simp [hbc] at hrun
    | ok b s2 =>
      obtain ⟨hflag, hbt⟩ := builtin_cmd_ok fuel j _ p.argv s s2 b hbc
      have hb1 : b = true := hbt hb
      subst hb1
      simp only [hbc, Outcome.ok.injEq] at hrun
      rw [← hrun.2]
      exact hflag

theorem LineInv.registry {procs : Ptr → List process_t} (bound : Nat)
    (h : Ptr → Option job_t) (aj : Option Ptr) (added : Bool) (cur : Option Ptr)
    (rest xs : List Ptr) (hinv : LineInv procs bound h aj added cur rest xs) :
    IsChain h aj xs := by
  cases rest with
  | nil => exact hinv.2.1
  | cons j rest => exact hinv.2.1.reg

theorem LineInv.disjoint {procs : Ptr → List process_t} (bound : Nat)
    (h : Ptr → Option job_t) (aj : Option Ptr) (cur : Option Ptr)
    (rest xs : List Ptr) (hinv : LineInv procs bound h aj false cur rest xs) :
    ∀ a ∈ rest, a ∉ xs := by
  cases rest with
  | nil => simp
  | cons j rest => simpa using hinv.2.1.link

theorem spawn_jobs_zero (os : OS) (fuel : Nat) (cur : Option Ptr) (s : State) :
    spawn_jobs os fuel 0 cur s = Outcome.ok cur s := by
  cases cur <;> rfl

theorem LeadPost.step (never lead tail : List Ptr) (j : Ptr) (m : Nat)
    (o : Outcome (Option Ptr)) (hp : LeadPost (never ++ [j]) lead tail m o) :
    LeadPost never (j :: lead) tail (m + 1) o := by
  cases o with
  | stuck => exact hp
  | exec c => trivial
  | exit code s1 => trivial
  | ok c s1 =>
    obtain ⟨xs1, hc, h1, h2, h3⟩ := hp
    refine ⟨xs1, hc, ?_, ?_, ?_⟩
    · intro a ha
      exact h1 a (by simpa using ha)
    · intro hm
      exact h2 (by simp only [List.length_cons] at hm; omega)
    · intro hf a ha
      exact h3 hf a (by simpa using ha)

/-- The inner loop of `main` on a line that begins with jobs whose first process is a
built-in: those jobs never enter the registry, and nothing of the line is registered while
only they have been spawned. -/
theorem lead_phase {procs : Ptr → List process_t} (os : OS) (fuel bound : Nat)
    (hb : bound ≤ fuel) (lead : List Ptr) :
    ∀ (tail : List Ptr) (m : Nat) (cur : Option Ptr) (s : State) (xs never : List Ptr),
      LineInv procs bound s.heap s.active_jobs s.jobs_added cur (lead ++ tail) xs →
      s.jobs_added = false → (∀ a ∈ lead, builtin_first (procs a) = true) →
      (∀ a ∈ never, a ∉ xs ∧ a ∉ lead ++ tail) →
      LeadPost never lead tail m (spawn_jobs os fuel m cur s) := by
  induction lead with
  | nil =>
    intro tail m cur s xs never hinv hadd _ hnever
    simp only [List.nil_append] at hinv hnever
    have hdis : ∀ a ∈ tail, a ∉ xs :=
      LineInv.disjoint bound s.heap s.active_jobs cur tail xs (hadd ▸ hinv)
    cases m with
    | zero =>
      rw [spawn_jobs_zero]
      refine ⟨xs, LineInv.registry _ _ _ _ _ _ _ hinv, ?_, fun _ => hadd, ?_⟩
      · intro a ha
        exact (hnever a (by simpa using ha)).1
      · intro _ a ha
        simp only [List.append_nil, List.mem_append] at ha
        rcases ha with h | h
        · exact (hnever a h).1
        · exact hdis a h
    | succ m1 =>
      have hpost := spawn_jobs_inv os fuel bound hb tail (m1 + 1) cur s xs hinv
      generalize spawn_jobs os fuel (m1 + 1) cur s = o at hpost
      cases o with
      | stuck => exact hpost
      | exec c => trivial
      | exit code s1 => trivial
      | ok c s1 =>
        obtain ⟨xs1, rest1, hinv1, hsub, _, _⟩ := hpost
        refine ⟨xs1, LineInv.registry _ _ _ _ _ _ _ hinv1, ?_, ?_, ?_⟩
        · intro a ha hm
          have hn := hnever a (by simpa using ha)
          rcases hsub a hm with h | h
          · exact hn.1 h
          · exact hn.2 h.2
        · intro hm
          simp at hm
        · intro hf a ha hm
          simp only [List.append_nil, List.mem_append] at ha
          rcases hsub a hm with h | h
          · rcases ha with h1 | h1
            · exact (hnever a h1).1 h
            · exact hdis a h1 h
          · rw [hf] at h
            simp at h
  | cons j lead ih =>
    intro tail m cur s xs never hinv hadd hlead hnever
    have hdis : ∀ a ∈ j :: (lead ++ tail), a ∉ xs :=
      LineInv.disjoint bound s.heap s.active_jobs cur (j :: (lead ++ tail)) xs (hadd ▸ hinv)
    cases m with
    | zero =>
      rw [spawn_jobs_zero]
      refine ⟨xs, LineInv.registry _ _ _ _ _ _ _ hinv, ?_, fun _ => hadd, ?_⟩
      · intro a ha
        rcases List.mem_append.mp ha with h | h
        · exact (hnever a h).1
        · exact hdis a (by simp only [List.mem_cons, List.mem_append] at h ⊢; tauto)
      · intro _ a ha
        simp only [List.mem_append, List.mem_cons] at ha
        rcases ha with (h | h) | h
        · exact (hnever a h).1
        · exact hdis a (by simp only [List.mem_cons, List.mem_append]; tauto)
        · exact hdis a (by simp only [List.mem_cons, List.mem_append]; tauto)
    | succ m1 =>
      obtain ⟨hcur, hsp, hfresh⟩ := hinv
      subst hcur
      obtain ⟨jb, hjb, hpr, hnc, hargv⟩ := hfresh
      have hbf : builtin_first jb.first_process = true := by
        rw [hpr]
        exact hlead j (List.mem_cons_self _ _)
      have hpost := spawn_job_inv os fuel bound j (!jb.bg) s (lead ++ tail) xs jb hb hsp hjb
        hnc hargv
      have hflag := spawn_job_builtin_flag os fuel j (!jb.bg) s
      rw [spawn_jobs]
      simp only [hjb]
      generalize spawn_job os fuel j (!jb.bg) s = o at hpost hflag
      cases o with
      | stuck => exact hpost
      | exec c => trivial
      | exit code s1 => trivial
      | ok u s1 =>
        obtain ⟨xs1, jf, hinv1, hsub, _, hjf, _⟩ := hpost
        have hadd1 : s1.jobs_added = false := by
          rw [hflag s1 jb u hjb hbf rfl]
          exact hadd
        have hsub1 : ∀ a ∈ xs1, a ∈ xs := by
          intro a ha
          rcases hsub a ha with h | h
          · exact h
          · rw [hadd1] at h
            simp at h
        simp only [hjf]
        have hline := SpawnInv.advance bound s1.heap s1.active_jobs s1.jobs_added j
          (lead ++ tail) xs1 jf hinv1 hjf
        have hnd := isChain_nodup _ _ _ hinv1.line
        apply LeadPost.step
        refine ih tail m1 jf.next s1 xs1 (never ++ [j]) hline hadd1
          (fun a ha => hlead a (List.mem_cons_of_mem _ ha)) ?_
        intro a ha
        rcases List.mem_append.mp ha with h | h
        · refine ⟨fun hm => (hnever a h).1 (hsub1 a hm), ?_⟩
          intro hm
          exact (hnever a h).2 (List.mem_cons_of_mem _ hm)
        · simp only [List.mem_singleton] at h
          subst h
          refine ⟨fun hm => hdis a (List.mem_cons_self _ _) (hsub1 a hm), ?_⟩
          intro hm
          simp [hm] at hnd

/-- The inner loop of `main` run up to and including `spawn_job` on a job `j` whose first
process is no built-in, whatever jobs `before` precede it on the line: when that call has
returned the line is registered and `j` is in the registry. -/
theorem turn_registers {procs : Ptr → List process_t} (os : OS) (fuel bound : Nat)
    (hb : bound ≤ fuel) (before : List Ptr) :
    ∀ (j : Ptr) (after : List Ptr) (cur : Option Ptr) (s : State) (xs : List Ptr),
      LineInv procs bound s.heap s.active_jobs s.jobs_added cur (before ++ j :: after) xs →
      registers (procs j) = true →
      RegisteredPost j (spawn_jobs os fuel (before.length + 1) cur s) := by
  induction before with
  | nil =>
    intro j after cur s xs hinv hreg
    obtain ⟨hcur, hsp, hfresh⟩ := hinv
    subst hcur
    obtain ⟨jb, hjb, hpr, hnc, hargv⟩ := hfresh
    have hpost := spawn_job_inv os fuel bound j (!jb.bg) s after xs jb hb hsp hjb hnc hargv
    rw [spawn_jobs]
    simp only [hjb]
    generalize spawn_job os fuel j (!jb.bg) s = o at hpost
    cases o with
    | stuck => exact hpost
    | exec c => trivial
    | exit code s1 => trivial
    | ok u s1 =>
      obtain ⟨xs1, jf, hinv1, _, hadd, hjf, _⟩ := hpost
      have hflag : s1.jobs_added = true := hadd (by rw [hpr, hreg]; simp)
      simp only [hjf, List.length_nil, spawn_jobs_zero]
      refine ⟨hflag, xs1, hinv1.reg, ?_⟩
      obtain ⟨pre, hpre⟩ : ∃ pre, xs1 = pre ++ j :: after := by
        simpa [hflag] using hinv1.link
      rw [hpre]
      simp
  | cons b before ih =>
    intro j after cur s xs hinv hreg
    obtain ⟨hcur, hsp, hfresh⟩ := hinv
    subst hcur
    obtain ⟨jb, hjb, _, hnc, hargv⟩ := hfresh
    have hpost := spawn_job_inv os fuel bound b (!jb.bg) s (before ++ j :: after) xs jb hb hsp
      hjb hnc hargv
    rw [List.length_cons, spawn_jobs]
    simp only [hjb]
    generalize spawn_job os fuel b (!jb.bg) s = o at hpost
    cases o with
    | stuck => exact hpost
    | exec c => trivial
    | exit code s1 => trivial
    | ok u s1 =>
      obtain ⟨xs1, jf, hinv1, _, _, hjf, _⟩ := hpost
      simp only [hjf]
      exact ih j after jf.next s1 xs1
        (SpawnInv.advance bound s1.heap s1.active_jobs s1.jobs_added b (before ++ j :: after)
          xs1 jf hinv1 hjf) hreg

/-! ## Claims about the driver loop -/

/-- C8: starting from the empty registry, whatever command lines the driver loop is fed
(each a chain of freshly allocated jobs, built-in or not, piped or not, `jobs` cleanups in
between), the shell is never stuck, and when it exits (at end of input, on `quit`, on a
failed fork) the list reachable from `active_jobs` is finite, ends in NULL and holds no job
twice. -/
theorem registry_has_no_repeated_job (os : OS) (fuel : Nat) (lines : List (List ParsedJob))
    (hnd : (all_addrs lines).Nodup) (hf : (all_addrs lines).length ≤ fuel) :
    dsh_main os fuel lines ≠ Outcome.stuck ∧
    ∀ code s1, dsh_main os fuel lines = Outcome.exit code s1 →
      ∃ xs, IsChain s1.heap s1.active_jobs xs ∧ xs.Nodup := by
  have hpost := dsh_loop_inv os fuel lines init_state [] rfl rfl hnd (by simp) (by simpa using hf)
  unfold dsh_main
  generalize dsh_loop os fuel lines init_state = o at hpost
  cases o with
  | stuck => exact absurd hpost id
  | exec c => exact ⟨by simp, by simp⟩
  | ok u s1 => exact absurd hpost id
  | exit code s1 =>
    refine ⟨by simp, ?_⟩
    intro code1 s2 h
    simp only [Outcome.exit.injEq] at h
    rw [← h.2]
    exact hpost

/-- C8 at `sample_lines`: after `ls ; cd`, `ls | wc` and `jobs` the registry is job 2. -/
theorem registry_has_no_repeated_job_witness :
    (all_addrs sample_lines).Nodup ∧ (all_addrs sample_lines).length ≤ 4 ∧
    registry_of 4 (dsh_main sample_os 4 sample_lines) = some [2] ∧
    dsh_main sample_os 4 sample_lines ≠ Outcome.stuck :=
  ⟨by decide, by decide, by decide,
    (registry_has_no_repeated_job sample_os 4 sample_lines (by decide) (by decide)).1⟩

/-- C9 as stated fails on the line `ls ; ps`, two jobs that are no built-ins: after the
first turn of the inner loop, when `spawn_job` has been called on `ls` only and
`current_job` points to `ps`, job 2 (`ps`) is already in the registry, behind job 1 whose
`next` link leads to it. -/
theorem job_registered_before_spawned :
    is_builtin ["ps"] = false ∧
    current_of (spawn_jobs sample_os 2 1
      (readcmdline [parsed 1 "ls" [], parsed 2 "ps" []] init_state).1
      (readcmdline [parsed 1 "ls" [], parsed 2 "ps" []] init_state).2) = some (some 2) ∧
    registry_of 2 (spawn_jobs sample_os 2 1
      (readcmdline [parsed 1 "ls" [], parsed 2 "ps" []] init_state).1
      (readcmdline [parsed 1 "ls" [], parsed 2 "ps" []] init_state).2) = some [1, 2] := by
  decide

/-- C9, amended: take a command line `lead ++ tail` of freshly allocated jobs, where every
job of `lead` has a built-in as first process, read on a well-formed registry, and run
the inner loop of the driver for any number `m` of turns.  It is not stuck, and if it
has not exited: the jobs of `lead` are not in the registry; while `spawn_job` has been
called on jobs of `lead` only (`m` at most their number) the line is not registered; and as
long as the line is not registered no job of it is in the registry.  And whatever job `pj`
of the line has a first process that is no built-in, when `spawn_job` has been called on it
and has returned, the line is registered and `pj` is in the registry exactly once. -/
theorem registration_point (os : OS) (fuel : Nat) (s : State) (xs : List Ptr)
    (lead tail : List ParsedJob) (m : Nat)
    (hreg : IsChain s.heap s.active_jobs xs) (hadd : s.jobs_added = false)
    (hlead : ∀ pj ∈ lead, is_builtin (pj.first.argv0 :: pj.first.args) = true)
    (hnd : (line_addrs (lead ++ tail)).Nodup)
    (hnew : ∀ a ∈ line_addrs (lead ++ tail), a ∉ xs)
    (hf : xs.length + (lead ++ tail).length ≤ fuel) :
    spawn_jobs os fuel m (readcmdline (lead ++ tail) s).1 (readcmdline (lead ++ tail) s).2 ≠
      Outcome.stuck ∧
    (∀ c s1, spawn_jobs os fuel m (readcmdline (lead ++ tail) s).1
        (readcmdline (lead ++ tail) s).2 = Outcome.ok c s1 →
      ∃ xs1, IsChain s1.heap s1.active_jobs xs1 ∧
        (∀ pj ∈ lead, pj.addr ∉ xs1) ∧
        (m ≤ lead.length → s1.jobs_added = false) ∧
        (s1.jobs_added = false → ∀ pj ∈ lead ++ tail, pj.addr ∉ xs1)) ∧
    (∀ before pj after, lead ++ tail = before ++ pj :: after →
      is_builtin (pj.first.argv0 :: pj.first.args) = false →
      spawn_jobs os fuel (before.length + 1) (readcmdline (lead ++ tail) s).1
        (readcmdline (lead ++ tail) s).2 ≠ Outcome.stuck ∧
      ∀ c s1, spawn_jobs os fuel (before.length + 1) (readcmdline (lead ++ tail) s).1
          (readcmdline (lead ++ tail) s).2 = Outcome.ok c s1 →
        s1.jobs_added = true ∧
        ∃ xs1, IsChain s1.heap s1.active_jobs xs1 ∧ xs1.count pj.addr = 1) := by
  have hinv := readcmdline_inv (lead ++ tail) s xs hreg hnd hnew
  have hinv0 : LineInv (heap_procs (readcmdline (lead ++ tail) s).2.heap)
      (xs.length + (lead ++ tail).length) (readcmdline (lead ++ tail) s).2.heap
      (readcmdline (lead ++ tail) s).2.active_jobs (readcmdline (lead ++ tail) s).2.jobs_added
      (readcmdline (lead ++ tail) s).1 (line_addrs (lead ++ tail)) xs := by
    rw [show (readcmdline (lead ++ tail) s).2.jobs_added = false from hadd]
    exact hinv
  have hfirst : ∀ pj ∈ lead ++ tail,
      heap_procs (readcmdline (lead ++ tail) s).2.heap pj.addr =
        mk_process pj.first :: pj.more.map mk_process := by
    intro pj hpj
    obtain ⟨nx, hnx⟩ := load_jobs_at (lead ++ tail) s.heap hnd pj hpj
    have : (readcmdline (lead ++ tail) s).2.heap pj.addr = some (mk_job pj nx) := hnx
    simp only [heap_procs, this, mk_job]
  refine ⟨?_, ?_, ?_⟩
  rotate_left 2
  · -- a job whose first process is no built-in
    intro before pj after hsplit hnb
    have hreg1 : registers (heap_procs (readcmdline (lead ++ tail) s).2.heap pj.addr) = true := by
      rw [hfirst pj (by rw [hsplit]; simp)]
      simp only [registers, mk_process]
      simpa using hnb
    have haddrs : line_addrs (lead ++ tail) =
        line_addrs before ++ pj.addr :: line_addrs after := by
      rw [hsplit]
      simp [line_addrs]
    rw [haddrs] at hinv0
    have hpost := turn_registers os fuel (xs.length + (lead ++ tail).length) hf
      (line_addrs before) pj.addr (line_addrs after) (readcmdline (lead ++ tail) s).1
      (readcmdline (lead ++ tail) s).2 xs hinv0 hreg1
    have hlen : (line_addrs before).length = before.length := by simp [line_addrs]
    rw [hlen] at hpost
    generalize spawn_jobs os fuel (before.length + 1) (readcmdline (lead ++ tail) s).1
      (readcmdline (lead ++ tail) s).2 = o at hpost
    cases o with
    | stuck => exact absurd hpost id
    | exec c => exact ⟨by simp, by simp⟩
    | exit code s1 => exact ⟨by simp, by simp⟩
    | ok c s1 =>
      refine ⟨by simp, ?_⟩
      intro c1 s2 h
      simp only [Outcome.ok.injEq] at h
      rw [← h.2]
      obtain ⟨hflag, xs1, hc, hmem⟩ := hpost
      exact ⟨hflag, xs1, hc, List.count_eq_one_of_mem (isChain_nodup _ _ _ hc) hmem⟩
  all_goals
    have haddrs : line_addrs (lead ++ tail) = line_addrs lead ++ line_addrs tail := by
      simp [line_addrs]
    rw [haddrs] at hinv0
    have hbf : ∀ a ∈ line_addrs lead,
        builtin_first (heap_procs (readcmdline (lead ++ tail) s).2.heap a) = true := by
      intro a ha
      obtain ⟨pj, hpj, e⟩ := List.mem_map.mp ha
      subst e
      rw [hfirst pj (List.mem_append_left _ hpj)]
      simp only [builtin_first, mk_process]
      exact hlead pj hpj
    have hpost := lead_phase os fuel (xs.length + (lead ++ tail).length) hf (line_addrs lead)
      (line_addrs tail) m (readcmdline (lead ++ tail) s).1 (readcmdline (lead ++ tail) s).2 xs
      [] hinv0 hadd hbf (by simp)
    generalize spawn_jobs os fuel m (readcmdline (lead ++ tail) s).1
      (readcmdline (lead ++ tail) s).2 = o at hpost
  · cases o with
    | stuck => exact absurd hpost id
    | exec c => simp
    | exit code s1 => simp
    | ok c s1 => simp
  · cases o with
    | stuck => exact absurd hpost id
    | exec c => simp
    | exit code s1 => simp
    | ok c s1 =>
      intro c1 s2 h
      simp only [Outcome.ok.injEq] at h
      rw [← h.2]
      obtain ⟨xs1, hc, h1, h2, h3⟩ := hpost
      refine ⟨xs1, hc, ?_, ?_, ?_⟩
      · intro pj hpj
        exact h1 _ (by simpa [line_addrs] using ⟨pj, hpj, rfl⟩)
      · intro hm
        exact h2 (by simpa [line_addrs] using hm)
      · intro hfl pj hpj
        apply h3 hfl
        simp only [List.nil_append, List.mem_append, line_addrs, List.mem_map]
        rcases List.mem_append.mp hpj with h | h
        · exact Or.inl ⟨pj, h, rfl⟩
        · exact Or.inr ⟨pj, h, rfl⟩

/-- C9, amended, at the line `cd ; ls ; cd`: after one turn nothing is registered; after
two turns `ls` has been spawned and job 2 is registered. -/
theorem registration_point_witness :
    IsChain init_state.heap init_state.active_jobs [] ∧
    init_state.jobs_added = false ∧
    (line_addrs ([parsed 1 "cd" []] ++ [parsed 2 "ls" [], parsed 3 "cd" []])).Nodup ∧
    registry_of 3 (spawn_jobs sample_os 3 1
      (readcmdline ([parsed 1 "cd" []] ++ [parsed 2 "ls" [], parsed 3 "cd" []]) init_state).1
      (readcmdline ([parsed 1 "cd" []] ++ [parsed 2 "ls" [], parsed 3 "cd" []]) init_state).2)
      = some [] ∧
    spawn_jobs sample_os 3 1
      (readcmdline ([parsed 1 "cd" []] ++ [parsed 2 "ls" [], parsed 3 "cd" []]) init_state).1
      (readcmdline ([parsed 1 "cd" []] ++ [parsed 2 "ls" [], parsed 3 "cd" []]) init_state).2
      ≠ Outcome.stuck ∧
    spawn_jobs sample_os 3 2
      (readcmdline ([parsed 1 "cd" []] ++ [parsed 2 "ls" [], parsed 3 "cd" []]) init_state).1
      (readcmdline ([parsed 1 "cd" []] ++ [parsed 2 "ls" [], parsed 3 "cd" []]) init_state).2
      ≠ Outcome.stuck :=
  ⟨rfl, rfl, by decide, by decide,
    (registration_point sample_os 3 init_state [] [parsed 1 "cd" []]
      [parsed 2 "ls" [], parsed 3 "cd" []] 1 rfl rfl (by decide) (by decide) (by simp)
      (by decide)).1,
    ((registration_point sample_os 3 init_state [] [parsed 1 "cd" []]
      [parsed 2 "ls" [], parsed 3 "cd" []] 1 rfl rfl (by decide) (by decide) (by simp)
      (by decide)).2.2 [parsed 1 "cd" []] (parsed 2 "ls" []) [parsed 3 "cd" []] rfl
      (by decide)).1⟩

end Dsh
